import Mathlib

/-!
Shallow embedding of the task-management core (`taskUtils` logic plus the
Gantt layout computation) and proofs of the specification's claims.

Conventions of the embedding:
* JavaScript numbers used as ids and millisecond timestamps become `Int`;
  day counts become `Int`; percentages become `Rat`.
* Nullable values become `Option`; JS string truthiness (`""` is falsy) is
  modelled explicitly where the source relies on it.
* ISO `YYYY-MM-DD` date strings are parsed with an executable
  civil-calendar parser (`parseISOdays`, days since the Unix epoch, the
  value `new Date(s).getTime()` divided by the ms-per-day constant).
  Strings that are not valid ISO dates (which yield `NaN` dates in JS)
  are outside the modelled domain; theorems about date arithmetic carry
  an explicit validity hypothesis.
* The two depth-first traversals are embedded with an explicit fuel
  parameter returning `Option`: `none` models fuel exhaustion.  The
  termination claims are settled by proving that the concrete fuel used
  by the top-level wrappers always suffices (the result is `some`).
-/

namespace TaskMgmt

/-- Task record as delivered by the API (`types.ts`). -/
structure Task where
  id : Int
  projectId : Int
  name : String
  status : String
  parentTaskId : Option Int
  dependsOn : List Int
  startDate : Option String
  dueDate : Option String
deriving Repr, DecidableEq

/-- Project record as delivered by the API (`types.ts`); `tasks` is optional. -/
structure Project where
  id : Int
  name : String
  tasks : Option (List Task)
deriving Repr, DecidableEq

/-- Project extended with the four computed metric fields (`types.ts`). -/
structure ProjectWithMetrics where
  id : Int
  name : String
  tasks : Option (List Task)
  taskCount : Nat
  earliestStartDate : Option String
  latestEndDate : Option String
  durationDays : Option Int
deriving Repr, DecidableEq

/-- Task enriched with the three derived relation lists (`types.ts`).
Relation entries are stored as task ids: the JS objects held in these
lists are the arena objects, and the traversal code only ever reads
their `id` field back. -/
structure TaskWithDependencies where
  id : Int
  projectId : Int
  name : String
  status : String
  parentTaskId : Option Int
  dependsOn : List Int
  startDate : Option String
  dueDate : Option String
  dependentTasks : List Int
  prerequisiteTasks : List Int
  childTasks : List Int
deriving Repr, DecidableEq

/-! ### ISO date strings -/

/-- Decimal digit test on a character. -/
def isDigitCh (c : Char) : Bool := 48 ≤ c.toNat && c.toNat ≤ 57

/-- Decimal value of a digit character. -/
def dval (c : Char) : Nat := c.toNat - 48

/-- Split a ten-character `YYYY-MM-DD` string into year, month, day. -/
def parseYMD (s : String) : Option (Nat × Nat × Nat) :=
  match s.data with
  | [y1, y2, y3, y4, h1, m1, m2, h2, d1, d2] =>
    if isDigitCh y1 && isDigitCh y2 && isDigitCh y3 && isDigitCh y4 &&
        h1 == '-' && isDigitCh m1 && isDigitCh m2 && h2 == '-' &&
        isDigitCh d1 && isDigitCh d2 then
      some (dval y1 * 1000 + dval y2 * 100 + dval y3 * 10 + dval y4,
            dval m1 * 10 + dval m2, dval d1 * 10 + dval d2)
    else none
  | _ => none

/-- Gregorian leap-year test. -/
def isLeapYear (y : Nat) : Bool := (y % 4 == 0 && y % 100 != 0) || y % 400 == 0

/-- Number of days in a month. -/
def daysInMonth (y m : Nat) : Nat :=
  if m == 2 then (if isLeapYear y then 29 else 28)
  else if m == 4 || m == 6 || m == 9 || m == 11 then 30
  else 31

/-- Range validity of a year/month/day triple. -/
def validYMD (y m d : Nat) : Bool :=
  1 ≤ m && m ≤ 12 && 1 ≤ d && d ≤ daysInMonth y m

/-- Days since 1970-01-01 of a civil date (standard civil-from-days
inverse, floor-division form). -/
def epochDaysOfYMD (y m d : Nat) : Int :=
  let yy : Int := if m ≤ 2 then (y : Int) - 1 else (y : Int)
  let era : Int := Int.fdiv yy 400
  let yoe : Int := yy - era * 400
  let mp : Int := ((m : Int) + 9) % 12
  let doy : Int := Int.fdiv (153 * mp + 2) 5 + (d : Int) - 1
  let doe : Int := yoe * 365 + Int.fdiv yoe 4 - Int.fdiv yoe 100 + doy
  era * 146097 + doe - 719468

/-- Parse an ISO `YYYY-MM-DD` string to days since the epoch; `none` for
strings JS would turn into an Invalid Date. -/
def parseISOdays (s : String) : Option Int :=
  match parseYMD s with
  | some (y, m, d) => if validYMD y m d then some (epochDaysOfYMD y m d) else none
  | none => none

/-- Milliseconds per day, the divisor `1000 * 60 * 60 * 24` of the source. -/
def msPerDay : Int := 86400000

/-- Millisecond timestamp of an optional date string (defaults used only
outside the valid-ISO domain, mirroring that all theorems needing real
date arithmetic assume validity). -/
def msOfOpt (o : Option String) : Int :=
  match o with
  | some s => (parseISOdays s).getD 0 * msPerDay
  | none => 0

/-- JS truthiness of a nullable string: `null` and `""` are falsy. -/
def truthyStr (o : Option String) : Bool :=
  match o with
  | some s => !s.isEmpty
  | none => false

/-- JS truthiness of a nullable number: `null` and `0` are falsy. -/
def truthyNum (o : Option Int) : Bool :=
  match o with
  | some v => v != 0
  | none => false

/-- Bool validity of an optional date field: absent, or parseable ISO. -/
def optValidB (o : Option String) : Bool :=
  match o with
  | some s => (parseISOdays s).isSome
  | none => true

/-- All date fields of every task in the list are absent or valid ISO dates. -/
def ValidDates (ts : List Task) : Prop :=
  ∀ t ∈ ts, optValidB t.startDate = true ∧ optValidB t.dueDate = true

instance : DecidablePred ValidDates := fun ts =>
  List.decidableBAll _ ts

/-! ### computeProjectMetrics (`taskUtils`, lines 6-50) -/

/-- `Math.ceil` of an integer division with positive divisor, as used on
the millisecond difference. -/
def ceilDiv (a b : Int) : Int := -(Int.fdiv (-a) b)

/-- Executable lexicographic comparison of character lists, the order JS
uses for `string < string` (code-unit comparison; identical to codepoint
comparison on these ASCII date strings). -/
def charListLtB : List Char → List Char → Bool
  | [], [] => false
  | [], _ :: _ => true
  | _ :: _, [] => false
  | a :: as, b :: bs =>
    if a < b then true else if b < a then false else charListLtB as bs

/-- JS `<` on strings. -/
def strLtB (a b : String) : Bool := charListLtB a.data b.data

/-- The source's `reduce((min, date) => (date < min ? date : min))`:
fold of the two-branch conditional over the tail, seeded by the head. -/
def reduceMin (h : String) (rest : List String) : String :=
  rest.foldl (fun m d => if strLtB d m then d else m) h

/-- The source's `reduce((max, date) => (date > max ? date : max))`. -/
def reduceMax (h : String) (rest : List String) : String :=
  rest.foldl (fun m d => if strLtB m d then d else m) h

/-- Non-null start dates of a task list (`map` then `filter !== null`). -/
def startDatesOf (ts : List Task) : List String := ts.filterMap (·.startDate)

/-- Non-null due dates of a task list. -/
def dueDatesOf (ts : List Task) : List String := ts.filterMap (·.dueDate)

/-- The source's `earliestStartDate` local: seed `reduce` with the head
of the non-null start dates, `null` when there are none. -/
def earliestOf (ts : List Task) : Option String :=
  match startDatesOf ts with
  | [] => none
  | h :: rest => some (reduceMin h rest)

/-- The source's `latestEndDate` local. -/
def latestOf (ts : List Task) : Option String :=
  match dueDatesOf ts with
  | [] => none
  | h :: rest => some (reduceMax h rest)

/-- The source's `durationDays` local: computed only when both bounds
are truthy, as `Math.ceil` of the millisecond difference over a day. -/
def durationOf (es ls : Option String) : Option Int :=
  match es, ls with
  | some s, some e =>
    if s.isEmpty || e.isEmpty then none
    else
      match parseISOdays s, parseISOdays e with
      | some a, some b => some (ceilDiv (b * msPerDay - a * msPerDay) msPerDay)
      | _, _ => none
  | _, _ => none

/-- Embedding of `computeProjectMetrics` (`taskUtils`, lines 6-50). -/
def computeProjectMetrics (project : Project) (tasks : List Task) : ProjectWithMetrics :=
  if tasks.length = 0 then
    { id := project.id, name := project.name, tasks := project.tasks
      taskCount := 0, earliestStartDate := none, latestEndDate := none
      durationDays := none }
  else
    { id := project.id, name := project.name, tasks := project.tasks
      taskCount := tasks.length, earliestStartDate := earliestOf tasks
      latestEndDate := latestOf tasks
      durationDays := durationOf (earliestOf tasks) (latestOf tasks) }

/-! ### enrichTasksWithDependencies (`taskUtils`, lines 55-92) -/

/-- Shorthand for the enriched task record. -/
abbrev ETask := TaskWithDependencies

/-- The id-indexed arena (`Map<number, TaskWithDependencies>`), as an
association list in insertion order. -/
abbrev TMap := List (Int × ETask)

/-- JS `Map.set`: overwrite in place if the key exists, else append. -/
def mapSet (m : TMap) (k : Int) (v : ETask) : TMap :=
  match m with
  | [] => [(k, v)]
  | (k', v') :: rest => if k' == k then (k, v) :: rest else (k', v') :: mapSet rest k v

/-- JS `Map.get`. -/
def mapGetE (m : TMap) (k : Int) : Option ETask :=
  (m.find? (fun p => p.1 == k)).map (·.2)

/-- Mutation of the object stored at a key, expressed functionally. -/
def mapUpd (m : TMap) (k : Int) (f : ETask → ETask) : TMap :=
  match m with
  | [] => []
  | (k', v') :: rest => if k' == k then (k', f v') :: rest else (k', v') :: mapUpd rest k f

/-- Pass 1 seed: a task with all three relation lists empty. -/
def mkEnriched (t : Task) : ETask :=
  { id := t.id, projectId := t.projectId, name := t.name, status := t.status
    parentTaskId := t.parentTaskId, dependsOn := t.dependsOn
    startDate := t.startDate, dueDate := t.dueDate
    dependentTasks := [], prerequisiteTasks := [], childTasks := [] }

/-- `prerequisiteTasks.push(prerequisite)`. -/
def pushPrereq (d : Int) (e : ETask) : ETask :=
  { e with prerequisiteTasks := e.prerequisiteTasks ++ [d] }

/-- `dependentTasks.push(enrichedTask)`. -/
def pushDependent (d : Int) (e : ETask) : ETask :=
  { e with dependentTasks := e.dependentTasks ++ [d] }

/-- `childTasks.push(enrichedTask)`. -/
def pushChild (d : Int) (e : ETask) : ETask :=
  { e with childTasks := e.childTasks ++ [d] }

/-- Pass 1: initialize the arena with every task, relation lists empty. -/
def enrichPass1 (tasks : List Task) : TMap :=
  tasks.foldl (fun m t => mapSet m t.id (mkEnriched t)) []

/-- Pass 2, dependency loop of one task: resolve each `dependsOn`
entry, recording both directions of the edge. -/
def enrichDepFold (m : TMap) (t : Task) : TMap :=
  t.dependsOn.foldl
    (fun m depId =>
      if (mapGetE m depId).isSome then
        mapUpd (mapUpd m t.id (pushPrereq depId)) depId (pushDependent t.id)
      else m) m

/-- Pass 2, parent link of one task: attach the task to its parent's
`childTasks` when the parent id is truthy and resolves. -/
def enrichParentStep (m : TMap) (t : Task) : TMap :=
  match t.parentTaskId with
  | some p =>
    if p != 0 then (if (mapGetE m p).isSome then mapUpd m p (pushChild t.id) else m) else m
  | none => m

/-- Pass 2 body for one task: the dependency loop, then the parent link. -/
def enrichStep (m : TMap) (t : Task) : TMap := enrichParentStep (enrichDepFold m t) t

/-- Embedding of `enrichTasksWithDependencies` (`taskUtils`, lines 55-92). -/
def enrichTasksWithDependencies (tasks : List Task) : List ETask :=
  (tasks.foldl enrichStep (enrichPass1 tasks)).map (·.2)

/-! ### Traversals (`taskUtils`, lines 97-156) -/

/-- Sequence a state-passing step over a list, short-circuiting on
failure (`forEach` with the threaded visited/result state). -/
def stepList {α : Type} (g : α → Int → Option α) : List Int → α → Option α
  | [], s => some s
  | i :: is, s =>
    match g s i with
    | none => none
    | some s' => stepList g is s'

/-- `tasks.find(t => t.id === currentId)`. -/
def findTask (ts : List ETask) (i : Int) : Option ETask :=
  ts.find? (fun t => t.id == i)

/-- One recursive `traverse` call of `findPrerequisitePath`: state is
(visited ids, path so far); `none` = out of fuel. -/
def prereqGo (ts : List ETask) (fuel : Nat) (st : List Int × List ETask) (c : Int) :
    Option (List Int × List ETask) :=
  if st.1.contains c then some st
  else
    match fuel with
    | 0 => none
    | f + 1 =>
      match findTask ts c with
      | none => some (c :: st.1, st.2)
      | some t =>
        match stepList (fun s i => prereqGo ts f s i) t.prerequisiteTasks
            (c :: st.1, st.2 ++ [t]) with
        | none => none
        | some st3 =>
          match t.parentTaskId with
          | some pid => if pid != 0 then prereqGo ts f st3 pid else some st3
          | none => some st3

/-- Every id the prerequisite traversal can ever be called on. -/
def prereqCands (ts : List ETask) (x : Int) : List Int :=
  (x :: (ts.map (·.id) ++ ts.flatMap (·.prerequisiteTasks) ++
    ts.filterMap (·.parentTaskId))).dedup

/-- Fuel that provably suffices for the prerequisite traversal. -/
def prereqFuel (ts : List ETask) (x : Int) : Nat := (prereqCands ts x).length + 1

/-- `findPrerequisitePath` before projecting away the visited set. -/
def findPrerequisitePathRun (taskId : Int) (tasks : List ETask) :
    Option (List Int × List ETask) :=
  prereqGo tasks (prereqFuel tasks taskId) ([], []) taskId

/-- Embedding of `findPrerequisitePath` (`taskUtils`, lines 97-124). -/
def findPrerequisitePath (taskId : Int) (tasks : List ETask) : List ETask :=
  match findPrerequisitePathRun taskId tasks with
  | some st => st.2
  | none => []

/-- One recursive `traverse` call of `findDependentTasks`: state is
(visited ids, result ids); each relation entry is pushed onto the result
before the recursive call, exactly as in the source. -/
def depGo (ts : List ETask) (fuel : Nat) (st : List Int × List Int) (c : Int) :
    Option (List Int × List Int) :=
  match findTask ts c with
  | none => some st
  | some t =>
    if st.1.contains c then some st
    else
      match fuel with
      | 0 => none
      | f + 1 =>
        match stepList (fun s i => depGo ts f (s.1, s.2 ++ [i]) i) t.dependentTasks
            (c :: st.1, st.2) with
        | none => none
        | some st2 => stepList (fun s i => depGo ts f (s.1, s.2 ++ [i]) i) t.childTasks st2

/-- Fuel that provably suffices for the dependents traversal. -/
def depFuel (ts : List ETask) : Nat := ((ts.map (·.id)).dedup).length + 1

/-- `findDependentTasks` before projecting away the visited set. -/
def findDependentTasksRun (taskId : Int) (tasks : List ETask) :
    Option (List Int × List Int) :=
  depGo tasks (depFuel tasks) ([], []) taskId

/-- Embedding of `findDependentTasks` (`taskUtils`, lines 129-156); the
result holds the ids of the pushed task objects. -/
def findDependentTasks (taskId : Int) (tasks : List ETask) : List Int :=
  match findDependentTasksRun taskId tasks with
  | some st => st.2
  | none => []

/-- Number of prerequisite-traversal candidate ids not yet visited: the
quantity that shrinks on every recursive call that passes the guard. -/
def measureP (ts : List ETask) (x : Int) (v : List Int) : Nat :=
  ((prereqCands ts x).filter (fun i => !v.contains i)).length

/-- Number of task ids not yet visited by the dependents traversal. -/
def measureD (ts : List ETask) (v : List Int) : Nat :=
  (((ts.map (·.id)).dedup).filter (fun i => !v.contains i)).length

/-- One dependent-or-child edge of the enriched graph, as followed by
`findDependentTasks`: from the id of a locatable task to each entry of
its `dependentTasks` and `childTasks` lists. -/
def depEdge (ts : List ETask) (a b : Int) : Prop :=
  ∃ t, findTask ts a = some t ∧ (b ∈ t.dependentTasks ∨ b ∈ t.childTasks)

/-- Invariant of the relationship-building pass of the enrichment: the
arena keeps one entry per input id in input order, every stored task
carries its key as id with relation lists drawn from the input ids, and
dependent/prerequisite edges are mutually consistent. -/
def EnrichInv (ts : List Task) (m : TMap) : Prop :=
  m.map (·.1) = ts.map (·.id) ∧
  (∀ k e, mapGetE m k = some e → e.id = k ∧
    (∀ i ∈ e.prerequisiteTasks, i ∈ ts.map (·.id)) ∧
    (∀ i ∈ e.dependentTasks, i ∈ ts.map (·.id)) ∧
    (∀ i ∈ e.childTasks, i ∈ ts.map (·.id))) ∧
  (∀ ka ea kb eb, mapGetE m ka = some ea → mapGetE m kb = some eb →
    (kb ∈ ea.dependentTasks ↔ ka ∈ eb.prerequisiteTasks))

/-! ### filterTasksByDateRange (`taskUtils`, lines 161-179) -/

/-- Test an optional timestamp the way JS tests `taskStart && cond`. -/
def optTest (o : Option Int) (f : Int → Bool) : Bool :=
  match o with
  | some v => f v
  | none => false

/-- The filter predicate of `filterTasksByDateRange`. -/
def inRangePred (startMs endMs : Int) (t : Task) : Bool :=
  if !truthyStr t.startDate && !truthyStr t.dueDate then false
  else
    let taskStart : Option Int :=
      if truthyStr t.startDate then some (msOfOpt t.startDate) else none
    let taskEnd : Option Int :=
      if truthyStr t.dueDate then some (msOfOpt t.dueDate) else none
    (optTest taskStart (fun s => startMs ≤ s && s ≤ endMs)) ||
    (optTest taskEnd (fun e => startMs ≤ e && e ≤ endMs)) ||
    (match taskStart, taskEnd with
     | some s, some e => s ≤ startMs && endMs ≤ e
     | _, _ => false)

/-- Embedding of `filterTasksByDateRange` (`taskUtils`, lines 161-179);
the range bounds are `Date` values, i.e. millisecond timestamps. -/
def filterTasksByDateRange (tasks : List Task) (startMs endMs : Int) : List Task :=
  tasks.filter (inRangePred startMs endMs)

/-! ### buildTaskHierarchy (`taskUtils`, lines 215-217) -/

/-- Embedding of `buildTaskHierarchy`: `tasks.filter(task => !task.parentTaskId)`. -/
def buildTaskHierarchy (tasks : List ETask) : List ETask :=
  tasks.filter (fun t => !truthyNum t.parentTaskId)

/-! ### Gantt layout (`TaskList.tsx`, `GanttChart`, lines 389-440 and 555-563) -/

/-- A positioned bar of the Gantt chart. -/
structure BarPos where
  task : Task
  leftPercent : Rat
  widthPercent : Rat
deriving Repr, DecidableEq

/-- `Math.min` over a spread array, seeded by its head. -/
def listMinInt (h : Int) (rest : List Int) : Int := rest.foldl min h

/-- `Math.max` over a spread array, seeded by its head. -/
def listMaxInt (h : Int) (rest : List Int) : Int := rest.foldl max h

/-- The `validTasks` local of `GanttChart`: tasks with both dates truthy. -/
def ganttValid (tasks : List Task) : List Task :=
  tasks.filter (fun t => truthyStr t.startDate && truthyStr t.dueDate)

/-- The padded `minDate` of the chart, in milliseconds. -/
def ganttMin (v : Task) (vs : List Task) : Int :=
  listMinInt (msOfOpt v.startDate) ((v :: vs).map (fun t => msOfOpt t.startDate)) - 2 * msPerDay

/-- The padded `maxDate` of the chart, in milliseconds. -/
def ganttMax (v : Task) (vs : List Task) : Int :=
  listMaxInt (msOfOpt v.dueDate) ((v :: vs).map (fun t => msOfOpt t.dueDate)) + 2 * msPerDay

/-- Position and width of one task bar over the given span. -/
def ganttBar (minDate totalMs : Int) (t : Task) : BarPos :=
  { task := t
    leftPercent := ((msOfOpt t.startDate - minDate : Int) : Rat) / (totalMs : Rat) * 100
    widthPercent := ((msOfOpt t.dueDate - msOfOpt t.startDate : Int) : Rat) / (totalMs : Rat) * 100 }

/-- Embedding of the `tasksWithPositions` computation of `GanttChart`:
tasks with both dates, positioned over the padded date span; empty
layout when no task qualifies. -/
def ganttPositions (tasks : List Task) : List BarPos :=
  match ganttValid tasks with
  | [] => []
  | v :: vs =>
    (v :: vs).map (ganttBar (ganttMin v vs) (ganttMax v vs - ganttMin v vs))

/-- The width actually rendered for a bar: `Math.max(widthPercent, 1)`
(`TaskList.tsx`, line 560). -/
def renderedWidthPercent (b : BarPos) : Rat := max b.widthPercent 1

/-! ### Concrete inputs used by witnesses and counterexamples -/

/-- Compact task builder for concrete inputs. -/
def mkTask (i : Int) (dep : List Int) (par : Option Int) (sd dd : Option String) : Task :=
  { id := i, projectId := 1, name := "task", status := "planned", parentTaskId := par
    dependsOn := dep, startDate := sd, dueDate := dd }

/-- A bare project record. -/
def exProjectC5 : Project := { id := 1, name := "demo", tasks := none }

/-- The spec's worked metrics example: startDates 03-10/03-05, dueDates 03-20/03-15. -/
def exTasksC5 : List Task :=
  [mkTask 1 [] none (some "2024-03-10") (some "2024-03-20"),
   mkTask 2 [] none (some "2024-03-05") (some "2024-03-15")]

/-- Diamond dependency graph: 2 and 3 depend on 1, 4 depends on both 2 and 3. -/
def exTasksDiamond : List Task :=
  [mkTask 1 [] none none none, mkTask 2 [1] none none none,
   mkTask 3 [1] none none none, mkTask 4 [2, 3] none none none]

/-- Two mutually dependent tasks (a dependency cycle). -/
def exTasksCycle : List Task :=
  [mkTask 1 [2] none none none, mkTask 2 [1] none none none]

/-- Acyclic two-task chain: 2 depends on 1. -/
def exTasksChain : List Task :=
  [mkTask 1 [] none none none, mkTask 2 [1] none none none]

/-- Unique ids with a dangling `dependsOn` reference (5 is absent). -/
def exTasksDangling : List Task :=
  [mkTask 1 [5] none none none, mkTask 2 [1] none none none]

/-- A task whose `parentTaskId` is the falsy number 0 (not null). -/
def exTaskPar0 : Task := mkTask 7 [] (some 0) none none

/-- Gantt input: two bars with identical dates plus one zero-duration bar. -/
def exTasksGantt : List Task :=
  [mkTask 1 [] none (some "2024-01-01") (some "2024-01-05"),
   mkTask 2 [] none (some "2024-01-01") (some "2024-01-05"),
   mkTask 3 [] none (some "2024-01-03") (some "2024-01-03")]

/-- A task spanning past both endpoints of the witness range. -/
def exTaskSpan : Task := mkTask 1 [] none (some "2024-03-01") (some "2024-03-31")

/-- Range-filter input: one task spanning past both range endpoints. -/
def exTasksRange : List Task := [exTaskSpan]

/-! ## Theorems -/

/-- C10: `computeProjectMetrics` carries every field of the input
project (id, name, embedded tasks) unchanged; only the four metric
fields are added on top. -/
theorem C10_computeProjectMetrics_frame (p : Project) (ts : List Task) :
    (computeProjectMetrics p ts).id = p.id ∧
    (computeProjectMetrics p ts).name = p.name ∧
    (computeProjectMetrics p ts).tasks = p.tasks := by
  by_cases h : ts.length = 0 <;> simp [computeProjectMetrics, h]

/-- Falsy test for a nullable integer, spelled out. -/
theorem not_truthyNum_iff (o : Option Int) :
    (!truthyNum o) = true ↔ (o = none ∨ o = some 0) := by
  cases o <;> simp [truthyNum, bne_eq_false_iff_eq]

/-- C6 (amended): `buildTaskHierarchy` returns exactly the tasks whose
`parentTaskId` is null or the falsy number 0 (the source tests
`!task.parentTaskId`, and `0` is falsy in JS). -/
theorem C6_buildTaskHierarchy_roots (ts : List ETask) (t : ETask) :
    t ∈ buildTaskHierarchy ts ↔
      t ∈ ts ∧ (t.parentTaskId = none ∨ t.parentTaskId = some 0) := by
  rw [buildTaskHierarchy, List.mem_filter, not_truthyNum_iff]

/-- C6 counterexample: a task whose `parentTaskId` is 0 (hence not
null) is still returned by `buildTaskHierarchy`, so the output is not
exactly the tasks with null `parentTaskId`. -/
theorem C6_counterexample :
    ¬ (∀ t ∈ buildTaskHierarchy (enrichTasksWithDependencies [exTaskPar0]),
        t.parentTaskId = none) := by
  decide

/-- The layout list under a nonempty `validTasks`. -/
theorem ganttPositions_eq (ts : List Task) (v : Task) (vs : List Task)
    (hv : ganttValid ts = v :: vs) :
    ganttPositions ts =
      (v :: vs).map (ganttBar (ganttMin v vs) (ganttMax v vs - ganttMin v vs)) := by
  simp only [ganttPositions, hv]

/-- C9: in the Gantt layout, two tasks with identical `startDate` and
`dueDate` receive identical `leftPercent` and `widthPercent`; a task
whose `startDate` equals its `dueDate` gets raw width 0 and is rendered
with the minimum floor width of 1%, not zero. -/
theorem C9_gantt_layout :
    (∀ (ts : List Task) (i j : Nat) (hi : i < (ganttPositions ts).length)
        (hj : j < (ganttPositions ts).length),
      ((ganttPositions ts).get ⟨i, hi⟩).task.startDate =
          ((ganttPositions ts).get ⟨j, hj⟩).task.startDate →
      ((ganttPositions ts).get ⟨i, hi⟩).task.dueDate =
          ((ganttPositions ts).get ⟨j, hj⟩).task.dueDate →
      ((ganttPositions ts).get ⟨i, hi⟩).leftPercent =
          ((ganttPositions ts).get ⟨j, hj⟩).leftPercent ∧
        ((ganttPositions ts).get ⟨i, hi⟩).widthPercent =
          ((ganttPositions ts).get ⟨j, hj⟩).widthPercent) ∧
    (∀ (ts : List Task) (i : Nat) (hi : i < (ganttPositions ts).length),
      ((ganttPositions ts).get ⟨i, hi⟩).task.startDate =
          ((ganttPositions ts).get ⟨i, hi⟩).task.dueDate →
      ((ganttPositions ts).get ⟨i, hi⟩).widthPercent = 0 ∧
        renderedWidthPercent ((ganttPositions ts).get ⟨i, hi⟩) = 1) := by
  constructor
  · intro ts i j hi hj h1 h2
    rcases hvalid : ganttValid ts with _ | ⟨v, vs⟩
    · rw [ganttPositions, hvalid] at hi
      simp at hi
    · have hpos := ganttPositions_eq ts v vs hvalid
      set b1 := (ganttPositions ts).get ⟨i, hi⟩ with hd1
      set b2 := (ganttPositions ts).get ⟨j, hj⟩ with hd2
      have hm1 : b1 ∈ ganttPositions ts := List.get_mem _ _ _
      have hm2 : b2 ∈ ganttPositions ts := List.get_mem _ _ _
      rw [hpos, List.mem_map] at hm1 hm2
      obtain ⟨t1, -, hb1⟩ := hm1
      obtain ⟨t2, -, hb2⟩ := hm2
      rw [← hb1, ← hb2] at h1 h2 ⊢
      simp only [ganttBar] at h1 h2 ⊢
      rw [h1, h2]
      exact ⟨rfl, rfl⟩
  · intro ts i hi h
    rcases hvalid : ganttValid ts with _ | ⟨v, vs⟩
    · rw [ganttPositions, hvalid] at hi
      simp at hi
    · have hpos := ganttPositions_eq ts v vs hvalid
      set b1 := (ganttPositions ts).get ⟨i, hi⟩ with hd1
      have hm1 : b1 ∈ ganttPositions ts := List.get_mem _ _ _
      rw [hpos, List.mem_map] at hm1
      obtain ⟨t1, -, hb1⟩ := hm1
      rw [← hb1] at h ⊢
      simp only [ganttBar, renderedWidthPercent] at h ⊢
      rw [h, sub_self]
      norm_num

/-- C9 witness: on a concrete chart, the two identically dated bars
share their percents and the zero-duration bar renders at 1%. -/
theorem C9_gantt_layout_witness :
    ((ganttPositions exTasksGantt).get ⟨0, by decide⟩).leftPercent =
        ((ganttPositions exTasksGantt).get ⟨1, by decide⟩).leftPercent ∧
      ((ganttPositions exTasksGantt).get ⟨0, by decide⟩).widthPercent =
        ((ganttPositions exTasksGantt).get ⟨1, by decide⟩).widthPercent ∧
      renderedWidthPercent ((ganttPositions exTasksGantt).get ⟨2, by decide⟩) = 1 :=
  ⟨(C9_gantt_layout.1 exTasksGantt 0 1 (by decide) (by decide) (by decide) (by decide)).1,
   (C9_gantt_layout.1 exTasksGantt 0 1 (by decide) (by decide) (by decide) (by decide)).2,
   (C9_gantt_layout.2 exTasksGantt 2 (by decide) (by decide)).2⟩

/-! ### String order bridge: `strLtB` decides lexicographic `List.Lex` -/

/-- The executable comparison agrees with lexicographic order on the
character lists. -/
theorem charListLtB_iff (l₁ l₂ : List Char) :
    charListLtB l₁ l₂ = true ↔ List.Lex (· < ·) l₁ l₂ := by
  induction l₁ generalizing l₂ with
  | nil =>
    cases l₂ with
    | nil => simp [charListLtB]
    | cons b bs =>
      constructor
      · intro _
        exact List.Lex.nil
      · intro _
        rfl
  | cons a as ih =>
    cases l₂ with
    | nil => simp [charListLtB]
    | cons b bs =>
      by_cases hab : a < b
      · simp only [charListLtB, if_pos hab]
        constructor
        · intro _
          exact List.Lex.rel hab
        · intro _
          trivial
      · by_cases hba : b < a
        · simp only [charListLtB, if_neg hab, if_pos hba]
          refine iff_of_false (by simp) ?_
          intro h
          cases h with
          | cons h' => exact absurd hba (lt_irrefl a)
          | rel h' => exact absurd h' hab
        · have heq : a = b := le_antisymm (not_lt.mp hba) (not_lt.mp hab)
          subst heq
          simp only [charListLtB, if_neg hab, if_neg hba]
          rw [ih bs]
          exact (List.Lex.cons_iff).symm

/-- JS string `<` as embedded agrees with lexicographic order on `.data`. -/
theorem strLtB_iff (a b : String) :
    strLtB a b = true ↔ List.Lex (· < ·) a.data b.data :=
  charListLtB_iff a.data b.data

/-- Lexicographic order on character lists is irreflexive. -/
theorem lex_irrefl (l : List Char) : ¬ List.Lex (· < ·) l l := by
  induction l with
  | nil => exact List.Lex.not_nil_right _ _
  | cons a as ih =>
    intro h
    cases h with
    | cons h' => exact ih h'
    | rel h' => exact lt_irrefl a h'

/-- Lexicographic order on character lists is transitive. -/
theorem lex_trans : ∀ {l₁ l₂ l₃ : List Char},
    List.Lex (· < ·) l₁ l₂ → List.Lex (· < ·) l₂ l₃ → List.Lex (· < ·) l₁ l₃ := by
  intro l₁ l₂ l₃ h₁ h₂
  induction h₂ generalizing l₁ with
  | nil => exact absurd h₁ (List.Lex.not_nil_right _ _)
  | @cons a l₂x l₃x h ih =>
    cases h₁ with
    | nil => exact List.Lex.nil
    | cons h₁x => exact List.Lex.cons (ih h₁x)
    | rel h₁x => exact List.Lex.rel h₁x
  | @rel a₁ l₂x a₂ l₃x hab =>
    cases h₁ with
    | nil => exact List.Lex.nil
    | cons h₁x => exact List.Lex.rel hab
    | rel h₁x => exact List.Lex.rel (lt_trans h₁x hab)

/-- Lexicographic order on character lists is trichotomous. -/
theorem lex_trichotomy (l₁ l₂ : List Char) :
    List.Lex (· < ·) l₁ l₂ ∨ l₁ = l₂ ∨ List.Lex (· < ·) l₂ l₁ := by
  induction l₁ generalizing l₂ with
  | nil =>
    cases l₂ with
    | nil => exact Or.inr (Or.inl rfl)
    | cons b bs => exact Or.inl List.Lex.nil
  | cons a as ih =>
    cases l₂ with
    | nil => exact Or.inr (Or.inr List.Lex.nil)
    | cons b bs =>
      rcases lt_trichotomy a b with hab | heq | hba
      · exact Or.inl (List.Lex.rel hab)
      · subst heq
        rcases ih bs with h | h | h
        · exact Or.inl (List.Lex.cons h)
        · exact Or.inr (Or.inl (by rw [h]))
        · exact Or.inr (Or.inr (List.Lex.cons h))
      · exact Or.inr (Or.inr (List.Lex.rel hba))

/-! ### The reduce folds pick a minimum and a maximum -/

/-- The min-fold result is one of the dates and no date is strictly
below it. -/
theorem reduceMin_spec (rest : List String) : ∀ h : String,
    reduceMin h rest ∈ h :: rest ∧
      ∀ d ∈ h :: rest, ¬ List.Lex (· < ·) d.data (reduceMin h rest).data := by
  induction rest with
  | nil =>
    intro h
    refine ⟨by simp [reduceMin], ?_⟩
    intro d hd
    simp only [List.mem_singleton] at hd
    subst hd
    exact lex_irrefl _
  | cons x rest ih =>
    intro h
    have hstep : reduceMin h (x :: rest) = reduceMin (if strLtB x h then x else h) rest := rfl
    by_cases hc : strLtB x h = true
    · have hlt : List.Lex (· < ·) x.data h.data := (strLtB_iff x h).mp hc
      rw [hstep, if_pos hc]
      obtain ⟨ihm, ihmin⟩ := ih x
      constructor
      · rcases List.mem_cons.mp ihm with hm | hm
        · exact List.mem_cons.mpr (Or.inr (by simp [hm]))
        · exact List.mem_cons.mpr (Or.inr (List.mem_cons.mpr (Or.inr hm)))
      · intro d hd
        rcases List.mem_cons.mp hd with rfl | hd
        · intro hcon
          exact ihmin x (List.mem_cons_self _ _) (lex_trans hlt hcon)
        · exact ihmin d hd
    · have hnl : ¬ List.Lex (· < ·) x.data h.data := fun hl => hc ((strLtB_iff x h).mpr hl)
      rw [hstep, if_neg hc]
      obtain ⟨ihm, ihmin⟩ := ih h
      constructor
      · rcases List.mem_cons.mp ihm with hm | hm
        · exact List.mem_cons.mpr (Or.inl hm)
        · exact List.mem_cons.mpr (Or.inr (List.mem_cons.mpr (Or.inr hm)))
      · intro d hd
        rcases List.mem_cons.mp hd with rfl | hd
        · exact ihmin d (List.mem_cons_self _ _)
        · rcases List.mem_cons.mp hd with rfl | hd
          · intro hcon
            rcases lex_trichotomy h.data d.data with hh | hh | hh
            · exact ihmin h (List.mem_cons_self _ _) (lex_trans hh hcon)
            · exact ihmin h (List.mem_cons_self _ _) (by rw [hh]; exact hcon)
            · exact hnl hh
          · exact ihmin d (List.mem_cons.mpr (Or.inr hd))

/-- The max-fold result is one of the dates and no date is strictly
above it. -/
theorem reduceMax_spec (rest : List String) : ∀ h : String,
    reduceMax h rest ∈ h :: rest ∧
      ∀ d ∈ h :: rest, ¬ List.Lex (· < ·) (reduceMax h rest).data d.data := by
  induction rest with
  | nil =>
    intro h
    refine ⟨by simp [reduceMax], ?_⟩
    intro d hd
    simp only [List.mem_singleton] at hd
    subst hd
    exact lex_irrefl _
  | cons x rest ih =>
    intro h
    have hstep : reduceMax h (x :: rest) = reduceMax (if strLtB h x then x else h) rest := rfl
    by_cases hc : strLtB h x = true
    · have hlt : List.Lex (· < ·) h.data x.data := (strLtB_iff h x).mp hc
      rw [hstep, if_pos hc]
      obtain ⟨ihm, ihmin⟩ := ih x
      constructor
      · rcases List.mem_cons.mp ihm with hm | hm
        · exact List.mem_cons.mpr (Or.inr (by simp [hm]))
        · exact List.mem_cons.mpr (Or.inr (List.mem_cons.mpr (Or.inr hm)))
      · intro d hd
        rcases List.mem_cons.mp hd with rfl | hd
        · intro hcon
          exact ihmin x (List.mem_cons_self _ _) (lex_trans hcon hlt)
        · exact ihmin d hd
    · have hnl : ¬ List.Lex (· < ·) h.data x.data := fun hl => hc ((strLtB_iff h x).mpr hl)
      rw [hstep, if_neg hc]
      obtain ⟨ihm, ihmin⟩ := ih h
      constructor
      · rcases List.mem_cons.mp ihm with hm | hm
        · exact List.mem_cons.mpr (Or.inl hm)
        · exact List.mem_cons.mpr (Or.inr (List.mem_cons.mpr (Or.inr hm)))
      · intro d hd
        rcases List.mem_cons.mp hd with rfl | hd
        · exact ihmin d (List.mem_cons_self _ _)
        · rcases List.mem_cons.mp hd with rfl | hd
          · intro hcon
            rcases lex_trichotomy d.data h.data with hh | hh | hh
            · exact ihmin h (List.mem_cons_self _ _) (lex_trans hcon hh)
            · exact ihmin h (List.mem_cons_self _ _) (by rw [← hh]; exact hcon)
            · exact hnl hh
          · exact ihmin d (List.mem_cons.mpr (Or.inr hd))

/-! ### computeProjectMetrics: characterization -/

/-- `earliestStartDate` is null exactly when no task has a start date. -/
theorem earliestOf_eq_none_iff (ts : List Task) :
    earliestOf ts = none ↔ startDatesOf ts = [] := by
  cases h : startDatesOf ts <;> simp [earliestOf, h]

/-- `latestEndDate` is null exactly when no task has a due date. -/
theorem latestOf_eq_none_iff (ts : List Task) :
    latestOf ts = none ↔ dueDatesOf ts = [] := by
  cases h : dueDatesOf ts <;> simp [latestOf, h]

/-- A non-null `earliestStartDate` is one of the start dates and no
start date is lexicographically below it. -/
theorem earliestOf_min (ts : List Task) (m : String) (hm : earliestOf ts = some m) :
    m ∈ startDatesOf ts ∧
      ∀ d ∈ startDatesOf ts, ¬ List.Lex (· < ·) d.data m.data := by
  cases h : startDatesOf ts with
  | nil => rw [earliestOf, h] at hm; exact Option.noConfusion hm
  | cons x rest =>
    rw [earliestOf, h] at hm
    have hm' : reduceMin x rest = m := Option.some.inj hm
    rw [← hm', ← h]
    have := reduceMin_spec rest x
    rw [← h] at this
    exact this

/-- A non-null `latestEndDate` is one of the due dates and is not
lexicographically below any of them. -/
theorem latestOf_max (ts : List Task) (m : String) (hm : latestOf ts = some m) :
    m ∈ dueDatesOf ts ∧
      ∀ d ∈ dueDatesOf ts, ¬ List.Lex (· < ·) m.data d.data := by
  cases h : dueDatesOf ts with
  | nil => rw [latestOf, h] at hm; exact Option.noConfusion hm
  | cons x rest =>
    rw [latestOf, h] at hm
    have hm' : reduceMax x rest = m := Option.some.inj hm
    rw [← hm', ← h]
    have := reduceMax_spec rest x
    rw [← h] at this
    exact this

/-- A parseable date string is nonempty (it has ten characters). -/
theorem parseISOdays_isEmpty_false (s : String) (a : Int)
    (h : parseISOdays s = some a) : s.isEmpty = false := by
  by_contra hne
  have he : s.isEmpty = true := by
    cases hv : s.isEmpty
    · exact absurd hv hne
    · rfl
  rw [String.isEmpty_iff] at he
  subst he
  rw [show parseISOdays "" = none from rfl] at h
  exact Option.noConfusion h

/-- `Math.ceil` of an exact whole-day millisecond difference is the day
difference itself. -/
theorem ceilDiv_exact (a b : Int) :
    ceilDiv (b * msPerDay - a * msPerDay) msPerDay = b - a := by
  have h1 : b * msPerDay - a * msPerDay = (b - a) * msPerDay := by ring
  rw [h1, ceilDiv]
  have h2 : -((b - a) * msPerDay) = (a - b) * msPerDay := by ring
  rw [h2, Int.mul_fdiv_cancel _ (by norm_num [msPerDay])]
  ring

/-- `durationDays` on two parseable bounds is the day difference. -/
theorem durationOf_some (s e : String) (a b : Int)
    (ha : parseISOdays s = some a) (hb : parseISOdays e = some b) :
    durationOf (some s) (some e) = some (b - a) := by
  rw [durationOf]
  rw [parseISOdays_isEmpty_false s a ha, parseISOdays_isEmpty_false e b hb]
  simp only [Bool.or_self, Bool.false_eq_true, if_false, ha, hb]
  rw [ceilDiv_exact]

/-- The metric record's task count. -/
theorem cpm_taskCount (p : Project) (ts : List Task) :
    (computeProjectMetrics p ts).taskCount = ts.length := by
  by_cases h : ts.length = 0 <;> simp [computeProjectMetrics, h]

/-- The metric record's earliest bound is `earliestOf`. -/
theorem cpm_earliest (p : Project) (ts : List Task) :
    (computeProjectMetrics p ts).earliestStartDate = earliestOf ts := by
  by_cases h : ts.length = 0
  · have : ts = [] := List.length_eq_zero.mp h
    subst this
    rfl
  · simp [computeProjectMetrics, h]

/-- The metric record's latest bound is `latestOf`. -/
theorem cpm_latest (p : Project) (ts : List Task) :
    (computeProjectMetrics p ts).latestEndDate = latestOf ts := by
  by_cases h : ts.length = 0
  · have : ts = [] := List.length_eq_zero.mp h
    subst this
    rfl
  · simp [computeProjectMetrics, h]

/-- The metric record's duration is `durationOf` of the two bounds. -/
theorem cpm_duration (p : Project) (ts : List Task) :
    (computeProjectMetrics p ts).durationDays =
      durationOf (earliestOf ts) (latestOf ts) := by
  by_cases h : ts.length = 0
  · have : ts = [] := List.length_eq_zero.mp h
    subst this
    rfl
  · simp [computeProjectMetrics, h]

/-- A date string drawn from a valid task list parses. -/
theorem startDate_parses (ts : List Task) (hv : ValidDates ts) (s : String)
    (hs : s ∈ startDatesOf ts) : ∃ a, parseISOdays s = some a := by
  rw [startDatesOf, List.mem_filterMap] at hs
  obtain ⟨t, ht, hts⟩ := hs
  have := (hv t ht).1
  rw [hts] at this
  simp only [optValidB, Option.isSome_iff_exists] at this
  exact this

/-- A due date string drawn from a valid task list parses. -/
theorem dueDate_parses (ts : List Task) (hv : ValidDates ts) (s : String)
    (hs : s ∈ dueDatesOf ts) : ∃ a, parseISOdays s = some a := by
  rw [dueDatesOf, List.mem_filterMap] at hs
  obtain ⟨t, ht, hts⟩ := hs
  have := (hv t ht).2
  rw [hts] at this
  simp only [optValidB, Option.isSome_iff_exists] at this
  exact this

/-- C5: `computeProjectMetrics` returns the task count, the
lexicographic minimum of the non-null start dates and maximum of the
non-null due dates (null when absent), and the day difference of the
two bounds when both exist (the `Math.ceil` is exact on whole-day
timestamps); an empty list yields count 0 and three nulls; and on the
spec's worked example it yields 2024-03-05, 2024-03-20 and 15 days. -/
theorem C5_computeProjectMetrics :
    (∀ (p : Project) (ts : List Task), ValidDates ts →
      (computeProjectMetrics p ts).taskCount = ts.length ∧
      ((computeProjectMetrics p ts).earliestStartDate = none ↔ startDatesOf ts = []) ∧
      (∀ m, (computeProjectMetrics p ts).earliestStartDate = some m →
        m ∈ startDatesOf ts ∧
          ∀ d ∈ startDatesOf ts, ¬ List.Lex (· < ·) d.data m.data) ∧
      ((computeProjectMetrics p ts).latestEndDate = none ↔ dueDatesOf ts = []) ∧
      (∀ e, (computeProjectMetrics p ts).latestEndDate = some e →
        e ∈ dueDatesOf ts ∧
          ∀ d ∈ dueDatesOf ts, ¬ List.Lex (· < ·) e.data d.data) ∧
      (∀ s e, (computeProjectMetrics p ts).earliestStartDate = some s →
        (computeProjectMetrics p ts).latestEndDate = some e →
        ∃ a b, parseISOdays s = some a ∧ parseISOdays e = some b ∧
          (computeProjectMetrics p ts).durationDays = some (b - a)) ∧
      (((computeProjectMetrics p ts).earliestStartDate = none ∨
          (computeProjectMetrics p ts).latestEndDate = none) →
        (computeProjectMetrics p ts).durationDays = none)) ∧
    (∀ p : Project, computeProjectMetrics p [] =
      { id := p.id, name := p.name, tasks := p.tasks, taskCount := 0
        earliestStartDate := none, latestEndDate := none, durationDays := none }) ∧
    (computeProjectMetrics exProjectC5 exTasksC5).earliestStartDate = some "2024-03-05" ∧
    (computeProjectMetrics exProjectC5 exTasksC5).latestEndDate = some "2024-03-20" ∧
    (computeProjectMetrics exProjectC5 exTasksC5).durationDays = some 15 := by
  refine ⟨?_, fun p => rfl, by decide, by decide, by decide⟩
  intro p ts hv
  refine ⟨cpm_taskCount p ts, ?_, ?_, ?_, ?_, ?_, ?_⟩
  · rw [cpm_earliest]
    exact earliestOf_eq_none_iff ts
  · intro m hm
    rw [cpm_earliest] at hm
    exact earliestOf_min ts m hm
  · rw [cpm_latest]
    exact latestOf_eq_none_iff ts
  · intro e he
    rw [cpm_latest] at he
    exact latestOf_max ts e he
  · intro s e hs he
    rw [cpm_earliest] at hs
    rw [cpm_latest] at he
    obtain ⟨a, ha⟩ := startDate_parses ts hv s (earliestOf_min ts s hs).1
    obtain ⟨b, hb⟩ := dueDate_parses ts hv e (latestOf_max ts e he).1
    refine ⟨a, b, ha, hb, ?_⟩
    rw [cpm_duration, hs, he]
    exact durationOf_some s e a b ha hb
  · intro hnone
    rw [cpm_duration]
    rcases hnone with hn | hn
    · rw [cpm_earliest] at hn
      rw [hn]
      rfl
    · rw [cpm_latest] at hn
      rw [hn]
      cases earliestOf ts <;> rfl

/-- C5 witness: the validity hypothesis holds on the worked example and
the general theorem applies there. -/
theorem C5_computeProjectMetrics_witness :
    ValidDates exTasksC5 ∧
      (computeProjectMetrics exProjectC5 exTasksC5).taskCount = 2 :=
  ⟨by decide,
   ((C5_computeProjectMetrics.1 exProjectC5 exTasksC5 (by decide)).1).trans (by decide)⟩

/-! ### filterTasksByDateRange -/

/-- C7: a task is kept by `filterTasksByDateRange` exactly when it has
at least one date and its start date lies in the range, or its due date
lies in the range, or both dates exist and straddle the whole range;
dateless tasks are always dropped. -/
theorem C7_filterTasksByDateRange (ts : List Task) (a b : Int) (t : Task)
    (hv : ValidDates ts) (ht : t ∈ ts) :
    t ∈ filterTasksByDateRange ts a b ↔
      ((t.startDate ≠ none ∨ t.dueDate ≠ none) ∧
        ((∃ s d, t.startDate = some s ∧ parseISOdays s = some d ∧
            a ≤ d * msPerDay ∧ d * msPerDay ≤ b) ∨
          (∃ s d, t.dueDate = some s ∧ parseISOdays s = some d ∧
            a ≤ d * msPerDay ∧ d * msPerDay ≤ b) ∨
          (∃ s ds e de, t.startDate = some s ∧ parseISOdays s = some ds ∧
            t.dueDate = some e ∧ parseISOdays e = some de ∧
            ds * msPerDay ≤ a ∧ b ≤ de * msPerDay))) := by
  have hval := hv t ht
  have hiff : inRangePred a b t = true ↔
      ((t.startDate ≠ none ∨ t.dueDate ≠ none) ∧
        ((∃ s d, t.startDate = some s ∧ parseISOdays s = some d ∧
            a ≤ d * msPerDay ∧ d * msPerDay ≤ b) ∨
          (∃ s d, t.dueDate = some s ∧ parseISOdays s = some d ∧
            a ≤ d * msPerDay ∧ d * msPerDay ≤ b) ∨
          (∃ s ds e de, t.startDate = some s ∧ parseISOdays s = some ds ∧
            t.dueDate = some e ∧ parseISOdays e = some de ∧
            ds * msPerDay ≤ a ∧ b ≤ de * msPerDay))) := by
    cases hs : t.startDate with
    | none =>
      cases hd : t.dueDate with
      | none => simp [inRangePred, truthyStr, hs, hd]
      | some e =>
        obtain ⟨de, hde⟩ : ∃ x, parseISOdays e = some x := by
          have := hval.2
          rw [hd] at this
          simpa [optValidB, Option.isSome_iff_exists] using this
        have hne : e.isEmpty = false := parseISOdays_isEmpty_false e de hde
        simp [inRangePred, truthyStr, optTest, msOfOpt, hs, hd, hne, hde]
    | some s =>
      obtain ⟨ds, hds⟩ : ∃ x, parseISOdays s = some x := by
        have := hval.1
        rw [hs] at this
        simpa [optValidB, Option.isSome_iff_exists] using this
      have hnes : s.isEmpty = false := parseISOdays_isEmpty_false s ds hds
      cases hd : t.dueDate with
      | none =>
        simp [inRangePred, truthyStr, optTest, msOfOpt, hs, hd, hnes, hds]
      | some e =>
        obtain ⟨de, hde⟩ : ∃ x, parseISOdays e = some x := by
          have := hval.2
          rw [hd] at this
          simpa [optValidB, Option.isSome_iff_exists] using this
        have hnee : e.isEmpty = false := parseISOdays_isEmpty_false e de hde
        simp [inRangePred, truthyStr, optTest, msOfOpt, hs, hd, hnes, hnee, hds, hde]
        exact or_assoc
  rw [filterTasksByDateRange, List.mem_filter]
  constructor
  · intro hp
    exact hiff.mp hp.2
  · intro h
    exact ⟨ht, hiff.mpr h⟩

/-- C7 witness: a task running 2024-03-01 to 2024-03-31 is kept for the
range 2024-03-10 to 2024-03-12 although neither endpoint lies inside. -/
theorem C7_filterTasksByDateRange_witness :
    ValidDates exTasksRange ∧
      exTaskSpan ∈ filterTasksByDateRange exTasksRange
        (msOfOpt (some "2024-03-10")) (msOfOpt (some "2024-03-12")) :=
  ⟨by decide,
   (C7_filterTasksByDateRange exTasksRange (msOfOpt (some "2024-03-10"))
       (msOfOpt (some "2024-03-12")) exTaskSpan (by decide) (by decide)).mpr
     ⟨Or.inl (by decide),
      Or.inr (Or.inr ⟨"2024-03-01", 19783, "2024-03-31", 19813, rfl, by decide, rfl,
        by decide, by decide, by decide⟩)⟩⟩

/-! ### Traversal infrastructure -/

/-- Turn a refuted Bool equation into the opposite equation. -/
theorem bool_ne_true_eq_false {b : Bool} (h : ¬ b = true) : b = false := by
  cases b
  · rfl
  · exact absurd rfl h

/-- Visited lists only ever grow by consing. -/
theorem contains_mono_cons (c : Int) (v : List Int) :
    ∀ i, v.contains i = true → (c :: v).contains i = true := by
  intro i h
  show ((i == c) || v.contains i) = true
  rw [h, Bool.or_true]

/-- The head of a freshly consed visited list is contained. -/
theorem contains_cons_self (c : Int) (v : List Int) : (c :: v).contains c = true := by
  show ((c == c) || v.contains c) = true
  simp

/-- A stronger filter keeps at most as many elements. -/
theorem filter_length_mono {p q : Int → Bool} (l : List Int)
    (h : ∀ i, p i = true → q i = true) :
    (l.filter p).length ≤ (l.filter q).length :=
  (List.monotone_filter_right l h).length_le

/-- Growing the visited list cannot increase the measure. -/
theorem measure_filter_mono (C : List Int) {v v' : List Int}
    (h : ∀ i, v.contains i = true → v'.contains i = true) :
    (C.filter (fun i => !v'.contains i)).length ≤
      (C.filter (fun i => !v.contains i)).length := by
  apply filter_length_mono
  intro i hi
  cases hv : v.contains i
  · rfl
  · rw [h i hv] at hi
    exact absurd hi (by simp)

/-- Visiting an unvisited candidate strictly shrinks the measure. -/
theorem measure_filter_cons_lt (C : List Int) {v : List Int} {c : Int}
    (hc : c ∈ C) (hv : v.contains c = false) :
    (C.filter (fun i => !(c :: v).contains i)).length <
      (C.filter (fun i => !v.contains i)).length := by
  have hcong : C.filter (fun i => !(c :: v).contains i) =
      (C.filter (fun i => !v.contains i)).filter (fun i => !(i == c)) := by
    rw [List.filter_filter]
    apply List.filter_congr
    intro i _
    show (!((i == c) || v.contains i)) = (!(i == c) && !v.contains i)
    rw [Bool.not_or]
  rw [hcong]
  rw [List.length_filter_lt_length_iff_exists]
  refine ⟨c, ?_, ?_⟩
  · rw [List.mem_filter]
    exact ⟨hc, by rw [hv]; rfl⟩
  · simp

/-- `measureP` is antitone in the visited list. -/
theorem measureP_mono (ts : List ETask) (x : Int) {v v' : List Int}
    (h : ∀ i, v.contains i = true → v'.contains i = true) :
    measureP ts x v' ≤ measureP ts x v :=
  measure_filter_mono (prereqCands ts x) h

/-- `measureP` strictly drops when an unvisited candidate is visited. -/
theorem measureP_cons_lt (ts : List ETask) (x : Int) {v : List Int} {c : Int}
    (hc : c ∈ prereqCands ts x) (hv : v.contains c = false) :
    measureP ts x (c :: v) < measureP ts x v :=
  measure_filter_cons_lt (prereqCands ts x) hc hv

/-- `measureD` is antitone in the visited list. -/
theorem measureD_mono (ts : List ETask) {v v' : List Int}
    (h : ∀ i, v.contains i = true → v'.contains i = true) :
    measureD ts v' ≤ measureD ts v := by
  unfold measureD
  exact measure_filter_mono _ h

/-- `measureD` strictly drops when an unvisited task id is visited. -/
theorem measureD_cons_lt (ts : List ETask) {v : List Int} {c : Int}
    (hc : c ∈ (ts.map (·.id)).dedup) (hv : v.contains c = false) :
    measureD ts (c :: v) < measureD ts v := by
  unfold measureD
  exact measure_filter_cons_lt _ hc hv

/-- A successful `find` returns a member whose id is the searched one. -/
theorem findTask_mem {ts : List ETask} {c : Int} {t : ETask}
    (h : findTask ts c = some t) : t ∈ ts ∧ t.id = c := by
  refine ⟨List.mem_of_find?_eq_some h, ?_⟩
  have := List.find?_some h
  exact eq_of_beq this

/-- `find` fails when no task has the searched id. -/
theorem findTask_eq_none {ts : List ETask} {c : Int} (h : ∀ t ∈ ts, t.id ≠ c) :
    findTask ts c = none := by
  apply List.find?_eq_none.mpr
  intro t ht
  simp [h t ht]

/-- Relation transfer along a `stepList` chain: any reflexive,
transitive relation established by every inner step is established by
the whole chain. -/
theorem stepList_inv {α : Type} (g : α → Int → Option α) (P : α → α → Prop)
    (hrefl : ∀ s, P s s) (htrans : ∀ a b c, P a b → P b c → P a c) :
    ∀ (ids : List Int) (s s' : α),
      (∀ s₀ s₀' i, i ∈ ids → g s₀ i = some s₀' → P s₀ s₀') →
      stepList g ids s = some s' → P s s' := by
  intro ids
  induction ids with
  | nil =>
    intro s s' _ h
    rw [stepList] at h
    exact (Option.some.inj h) ▸ hrefl s
  | cons j js ihl =>
    intro s s' hg h
    rw [stepList] at h
    cases hg' : g s j with
    | none => rw [hg'] at h; exact Option.noConfusion h
    | some s₁ =>
      rw [hg'] at h
      exact htrans _ _ _ (hg s s₁ j (List.mem_cons_self _ _) hg')
        (ihl s₁ s' (fun a b i hi => hg a b i (List.mem_cons.mpr (Or.inr hi))) h)

/-- A `stepList` chain succeeds when every inner step succeeds without
raising the measure. -/
theorem stepList_some {α : Type} (g : α → Int → Option α) (μ : α → Nat) (f : Nat)
    (ok : Int → Prop)
    (hg : ∀ (s : α) (i : Int), ok i → μ s < f → ∃ s', g s i = some s' ∧ μ s' ≤ μ s) :
    ∀ (ids : List Int) (s : α), (∀ i ∈ ids, ok i) → μ s < f →
      ∃ s', stepList g ids s = some s' ∧ μ s' ≤ μ s := by
  intro ids
  induction ids with
  | nil =>
    intro s _ _
    exact ⟨s, rfl, le_refl _⟩
  | cons j js ihl =>
    intro s hok hμ
    obtain ⟨s₁, h₁, hμ₁⟩ := hg s j (hok j (List.mem_cons_self _ _)) hμ
    obtain ⟨s₂, h₂, hμ₂⟩ := ihl s₁ (fun i hi => hok i (List.mem_cons.mpr (Or.inr hi)))
      (lt_of_le_of_lt hμ₁ hμ)
    refine ⟨s₂, ?_, le_trans hμ₂ hμ₁⟩
    rw [stepList, h₁]
    exact h₂

/-- Termination of the prerequisite traversal: with fuel exceeding the
number of unvisited candidate ids, `prereqGo` always returns `some`,
and never shrinks the visited measure's complement. -/
theorem prereqGo_some (ts : List ETask) (x : Int) :
    ∀ (fuel : Nat) (st : List Int × List ETask) (c : Int),
      c ∈ prereqCands ts x → measureP ts x st.1 < fuel →
      ∃ st', prereqGo ts fuel st c = some st' ∧
        measureP ts x st'.1 ≤ measureP ts x st.1 := by
  intro fuel
  induction fuel with
  | zero =>
    intro st c _ hμ
    exact absurd hμ (Nat.not_lt_zero _)
  | succ f ih =>
    intro st c hc hμ
    obtain ⟨v, p⟩ := st
    by_cases hvism : c ∈ v
    · refine ⟨(v, p), ?_, le_refl _⟩
      rw [prereqGo]
      simp [hvism]
    · have hvis' : v.contains c = false :=
        bool_ne_true_eq_false (fun h => hvism (List.elem_iff.mp h))
      have hμc : measureP ts x (c :: v) < f := by
        have hlt := measureP_cons_lt ts x hc hvis'
        simp only at hμ
        omega
      cases hf : findTask ts c with
      | none =>
        refine ⟨(c :: v, p), ?_, le_of_lt (measureP_cons_lt ts x hc hvis')⟩
        rw [prereqGo]
        simp [hvism, hf]
      | some t =>
        obtain ⟨htmem, htid⟩ := findTask_mem hf
        have hpre : ∀ i ∈ t.prerequisiteTasks, i ∈ prereqCands ts x := by
          intro i hi
          rw [prereqCands, List.mem_dedup]
          refine List.mem_cons.mpr (Or.inr ?_)
          refine List.mem_append.mpr (Or.inl (List.mem_append.mpr (Or.inr ?_)))
          exact List.mem_flatMap.mpr ⟨t, htmem, hi⟩
        obtain ⟨st₂, h₂, hμ₂⟩ :=
          stepList_some (fun s i => prereqGo ts f s i)
            (fun s => measureP ts x s.1) f (· ∈ prereqCands ts x)
            (fun s i hok hμs => ih s i hok hμs)
            t.prerequisiteTasks (c :: v, p ++ [t]) hpre hμc
        have hμ₂' : measureP ts x st₂.1 ≤ measureP ts x v :=
          le_trans hμ₂ (le_of_lt (measureP_cons_lt ts x hc hvis'))
        cases hpar : t.parentTaskId with
        | none =>
          refine ⟨st₂, ?_, hμ₂'⟩
          rw [prereqGo]
          simp [hvism, hf, h₂, hpar]
        | some pid =>
          by_cases hpid : (pid != 0) = true
          · have hpc : pid ∈ prereqCands ts x := by
              rw [prereqCands, List.mem_dedup]
              refine List.mem_cons.mpr (Or.inr (List.mem_append.mpr (Or.inr ?_)))
              exact List.mem_filterMap.mpr ⟨t, htmem, hpar⟩
            have hμst₂ : measureP ts x st₂.1 < f := lt_of_le_of_lt hμ₂ hμc
            obtain ⟨st₃, h₃, hμ₃⟩ := ih st₂ pid hpc hμst₂
            refine ⟨st₃, ?_, le_trans hμ₃ hμ₂'⟩
            rw [prereqGo]
            simp [hvism, hf, h₂, hpar, hpid, h₃]
          · have hpid' : (pid != 0) = false := bool_ne_true_eq_false hpid
            refine ⟨st₂, ?_, hμ₂'⟩
            rw [prereqGo]
            simp [hvism, hf, h₂, hpar, hpid']

/-- Termination of the dependents traversal: with fuel exceeding the
number of unvisited task ids, `depGo` always returns `some`. -/
theorem depGo_some (ts : List ETask) :
    ∀ (fuel : Nat) (st : List Int × List Int) (c : Int),
      measureD ts st.1 < fuel →
      ∃ st', depGo ts fuel st c = some st' ∧
        measureD ts st'.1 ≤ measureD ts st.1 := by
  intro fuel
  induction fuel with
  | zero =>
    intro st c hμ
    exact absurd hμ (Nat.not_lt_zero _)
  | succ f ih =>
    intro st c hμ
    obtain ⟨v, a⟩ := st
    cases hf : findTask ts c with
    | none =>
      refine ⟨(v, a), ?_, le_refl _⟩
      rw [depGo]
      simp [hf]
    | some t =>
      by_cases hvism : c ∈ v
      · refine ⟨(v, a), ?_, le_refl _⟩
        rw [depGo]
        simp [hf, hvism]
      · have hvis' : v.contains c = false :=
          bool_ne_true_eq_false (fun h => hvism (List.elem_iff.mp h))
        obtain ⟨htmem, htid⟩ := findTask_mem hf
        have hcid : c ∈ (ts.map (·.id)).dedup := by
          rw [List.mem_dedup]
          exact htid ▸ List.mem_map_of_mem _ htmem
        have hμc : measureD ts (c :: v) < f := by
          have hlt := measureD_cons_lt ts hcid hvis'
          simp only at hμ
          omega
        obtain ⟨st₂, h₂, hμ₂⟩ :=
          stepList_some (fun s i => depGo ts f (s.1, s.2 ++ [i]) i)
            (fun s => measureD ts s.1) f (fun _ => True)
            (fun s i _ hμs => ih (s.1, s.2 ++ [i]) i hμs)
            t.dependentTasks (c :: v, a) (fun _ _ => trivial) hμc
        obtain ⟨st₃, h₃, hμ₃⟩ :=
          stepList_some (fun s i => depGo ts f (s.1, s.2 ++ [i]) i)
            (fun s => measureD ts s.1) f (fun _ => True)
            (fun s i _ hμs => ih (s.1, s.2 ++ [i]) i hμs)
            t.childTasks st₂ (fun _ _ => trivial) (lt_of_le_of_lt hμ₂ hμc)
        refine ⟨st₃, ?_, ?_⟩
        · rw [depGo]
          simp [hf, hvism, h₂, h₃]
        · calc measureD ts st₃.1 ≤ measureD ts st₂.1 := hμ₃
            _ ≤ measureD ts (c :: v) := hμ₂
            _ ≤ measureD ts v := le_of_lt (measureD_cons_lt ts hcid hvis')

/-- State invariants of the prerequisite traversal: a `some` result
preserves the no-duplicate-ids invariant of the path (every path id
being visited), only grows the visited list, and only appends to the
path. -/
theorem prereqGo_inv (ts : List ETask) :
    ∀ (fuel : Nat) (st : List Int × List ETask) (c : Int) (st' : List Int × List ETask),
      prereqGo ts fuel st c = some st' →
      ((((st.2.map (·.id)).Nodup ∧ ∀ u ∈ st.2, st.1.contains u.id = true)) →
        (((st'.2.map (·.id)).Nodup ∧ ∀ u ∈ st'.2, st'.1.contains u.id = true))) ∧
      (∀ i, st.1.contains i = true → st'.1.contains i = true) ∧
      ∃ q, st'.2 = st.2 ++ q := by
  intro fuel
  induction fuel with
  | zero =>
    intro st c st' h
    obtain ⟨v, p⟩ := st
    obtain ⟨v', p'⟩ := st'
    rw [prereqGo] at h
    by_cases hvism : c ∈ v
    · simp [hvism] at h
      obtain ⟨rfl, rfl⟩ := h
      exact ⟨fun hi => hi, fun _ hh => hh, [], by simp⟩
    · simp [hvism] at h
  | succ f ih =>
    intro st c st' h
    obtain ⟨v, p⟩ := st
    obtain ⟨v', p'⟩ := st'
    rw [prereqGo] at h
    by_cases hvism : c ∈ v
    · simp [hvism] at h
      obtain ⟨rfl, rfl⟩ := h
      exact ⟨fun hi => hi, fun _ hh => hh, [], by simp⟩
    · rw [if_neg (by simpa using hvism)] at h
      cases hf : findTask ts c with
      | none =>
        rw [hf] at h
        simp only [Option.some.injEq, Prod.mk.injEq] at h
        obtain ⟨rfl, rfl⟩ := h
        refine ⟨?_, contains_mono_cons c v, [], by simp⟩
        rintro ⟨hnd, hsub⟩
        exact ⟨hnd, fun u hu => contains_mono_cons c v _ (hsub u hu)⟩
      | some t =>
        obtain ⟨htmem, htid⟩ := findTask_mem hf
        rw [hf] at h
        simp only at h
        cases hsl : stepList (fun s i => prereqGo ts f s i) t.prerequisiteTasks
            (c :: v, p ++ [t]) with
        | none => rw [hsl] at h; simp at h
        | some st₂ =>
          obtain ⟨v₂, p₂⟩ := st₂
          rw [hsl] at h
          simp only at h
          have hstep := stepList_inv (fun s i => prereqGo ts f s i)
            (fun s s' : List Int × List ETask =>
              (((s.2.map (fun u : ETask => u.id)).Nodup ∧
                  ∀ u ∈ s.2, s.1.contains u.id = true) →
                ((s'.2.map (fun u : ETask => u.id)).Nodup ∧
                  ∀ u ∈ s'.2, s'.1.contains u.id = true)) ∧
              (∀ i, s.1.contains i = true → s'.1.contains i = true) ∧
              ∃ q, s'.2 = s.2 ++ q)
            (fun s => ⟨fun hi => hi, fun _ hh => hh, [], by simp⟩)
            (fun a b d hab hbd =>
              ⟨fun hi => hbd.1 (hab.1 hi), fun i hi => hbd.2.1 i (hab.2.1 i hi), by
                obtain ⟨q₁, e₁⟩ := hab.2.2
                obtain ⟨q₂, e₂⟩ := hbd.2.2
                exact ⟨q₁ ++ q₂, by rw [e₂, e₁, List.append_assoc]⟩⟩)
            t.prerequisiteTasks (c :: v, p ++ [t]) (v₂, p₂)
            (fun a b i _ hgi => ih a i b hgi) hsl
          have hbase : ((p.map (·.id)).Nodup ∧ ∀ u ∈ p, v.contains u.id = true) →
              (((p ++ [t]).map (·.id)).Nodup ∧
                ∀ u ∈ p ++ [t], (c :: v).contains u.id = true) := by
            rintro ⟨hnd, hsub⟩
            constructor
            · rw [List.map_append]
              refine List.Nodup.append hnd (by simp) ?_
              intro b hb1 hb2
              simp only [List.map_cons, List.map_nil, List.mem_singleton] at hb2
              subst hb2
              rw [htid] at hb1
              obtain ⟨u, hu, hueq⟩ := List.mem_map.mp hb1
              have := hsub u hu
              rw [hueq] at this
              exact hvism (List.elem_iff.mp this)
            · intro u hu
              rcases List.mem_append.mp hu with hu | hu
              · exact contains_mono_cons c v _ (hsub u hu)
              · simp only [List.mem_singleton] at hu
                subst hu
                rw [htid]
                exact contains_cons_self c v
          cases hpar : t.parentTaskId with
          | none =>
            rw [hpar] at h
            simp only [Option.some.injEq, Prod.mk.injEq] at h
            obtain ⟨rfl, rfl⟩ := h
            refine ⟨fun hi => hstep.1 (hbase hi),
              fun i hi => hstep.2.1 i (contains_mono_cons c v i hi), ?_⟩
            obtain ⟨q₁, e₁⟩ := hstep.2.2
            exact ⟨[t] ++ q₁, by rw [e₁]; simp⟩
          | some pid =>
            rw [hpar] at h
            simp only at h
            by_cases hz : pid = 0
            · rw [if_neg (by simp [hz])] at h
              simp only [Option.some.injEq, Prod.mk.injEq] at h
              obtain ⟨rfl, rfl⟩ := h
              refine ⟨fun hi => hstep.1 (hbase hi),
                fun i hi => hstep.2.1 i (contains_mono_cons c v i hi), ?_⟩
              obtain ⟨q₁, e₁⟩ := hstep.2.2
              exact ⟨[t] ++ q₁, by rw [e₁]; simp⟩
            · rw [if_pos (by simp [hz])] at h
              have hrec := ih (v₂, p₂) pid (v', p') h
              refine ⟨fun hi => hrec.1 (hstep.1 (hbase hi)),
                fun i hi => hrec.2.1 i (hstep.2.1 i (contains_mono_cons c v i hi)), ?_⟩
              obtain ⟨q₁, e₁⟩ := hstep.2.2
              obtain ⟨q₂, e₂⟩ := hrec.2.2
              refine ⟨[t] ++ q₁ ++ q₂, ?_⟩
              simp only at e₂ e₁
              rw [e₂, e₁]
              simp [List.append_assoc]

/-- Provenance of the dependents traversal: every id in the result was
either already accumulated, or is a dependent/child of some task
reachable from the current id along dependent/child edges. -/
theorem depGo_reach (ts : List ETask) :
    ∀ (fuel : Nat) (st : List Int × List Int) (c : Int) (st' : List Int × List Int),
      depGo ts fuel st c = some st' →
      ∀ i ∈ st'.2, i ∈ st.2 ∨
        ∃ k, Relation.ReflTransGen (depEdge ts) c k ∧ depEdge ts k i := by
  intro fuel
  induction fuel with
  | zero =>
    intro st c st' h
    obtain ⟨v, a⟩ := st
    obtain ⟨v', a'⟩ := st'
    rw [depGo] at h
    cases hf : findTask ts c with
    | none =>
      rw [hf] at h
      simp only [Option.some.injEq, Prod.mk.injEq] at h
      obtain ⟨rfl, rfl⟩ := h
      exact fun i hi => Or.inl hi
    | some t =>
      rw [hf] at h
      by_cases hvism : c ∈ v
      · simp [hvism] at h
        obtain ⟨rfl, rfl⟩ := h
        exact fun i hi => Or.inl hi
      · simp [hvism] at h
  | succ f ih =>
    intro st c st' h
    obtain ⟨v, a⟩ := st
    obtain ⟨v', a'⟩ := st'
    rw [depGo] at h
    cases hf : findTask ts c with
    | none =>
      rw [hf] at h
      simp only [Option.some.injEq, Prod.mk.injEq] at h
      obtain ⟨rfl, rfl⟩ := h
      exact fun i hi => Or.inl hi
    | some t =>
      obtain ⟨htmem, htid⟩ := findTask_mem hf
      rw [hf] at h
      simp only at h
      by_cases hvism : c ∈ v
      · simp [hvism] at h
        obtain ⟨rfl, rfl⟩ := h
        exact fun i hi => Or.inl hi
      · rw [if_neg (by simpa using hvism)] at h
        cases hsl : stepList (fun s i => depGo ts f (s.1, s.2 ++ [i]) i)
            t.dependentTasks (c :: v, a) with
        | none => rw [hsl] at h; simp at h
        | some st₂ =>
          rw [hsl] at h
          simp only at h
          have hP1 := stepList_inv (fun s i => depGo ts f (s.1, s.2 ++ [i]) i)
            (fun s s' : List Int × List Int =>
              ∀ i ∈ s'.2, i ∈ s.2 ∨
                ∃ k, Relation.ReflTransGen (depEdge ts) c k ∧ depEdge ts k i)
            (fun s i hi => Or.inl hi)
            (fun x y z hxy hyz i hi => by
              rcases hyz i hi with hy | hy
              · exact hxy i hy
              · exact Or.inr hy)
            t.dependentTasks (c :: v, a) st₂
            (fun s₀ s₀' i hids hgi => by
              intro j hj
              have hci : depEdge ts c i := ⟨t, hf, Or.inl hids⟩
              rcases ih (s₀.1, s₀.2 ++ [i]) i s₀' hgi j hj with hj' | hj'
              · rcases List.mem_append.mp hj' with hj'' | hj''
                · exact Or.inl hj''
                · simp only [List.mem_singleton] at hj''
                  subst hj''
                  exact Or.inr ⟨c, Relation.ReflTransGen.refl, hci⟩
              · obtain ⟨k, hik, hkj⟩ := hj'
                exact Or.inr ⟨k, Relation.ReflTransGen.head hci hik, hkj⟩) hsl
          have hP2 := stepList_inv (fun s i => depGo ts f (s.1, s.2 ++ [i]) i)
            (fun s s' : List Int × List Int =>
              ∀ i ∈ s'.2, i ∈ s.2 ∨
                ∃ k, Relation.ReflTransGen (depEdge ts) c k ∧ depEdge ts k i)
            (fun s i hi => Or.inl hi)
            (fun x y z hxy hyz i hi => by
              rcases hyz i hi with hy | hy
              · exact hxy i hy
              · exact Or.inr hy)
            t.childTasks st₂ (v', a')
            (fun s₀ s₀' i hids hgi => by
              intro j hj
              have hci : depEdge ts c i := ⟨t, hf, Or.inr hids⟩
              rcases ih (s₀.1, s₀.2 ++ [i]) i s₀' hgi j hj with hj' | hj'
              · rcases List.mem_append.mp hj' with hj'' | hj''
                · exact Or.inl hj''
                · simp only [List.mem_singleton] at hj''
                  subst hj''
                  exact Or.inr ⟨c, Relation.ReflTransGen.refl, hci⟩
              · obtain ⟨k, hik, hkj⟩ := hj'
                exact Or.inr ⟨k, Relation.ReflTransGen.head hci hik, hkj⟩) h
          intro i hi
          rcases hP2 i hi with hy | hy
          · exact hP1 i hy
          · exact Or.inr hy

/-- One unfolding of a successful guarded call: the found task is
appended right at the current end of the path, before anything else. -/
theorem prereqGo_head (ts : List ETask) (f : Nat) (v : List Int) (p : List ETask)
    (c : Int) (st' : List Int × List ETask) (hvism : c ∉ v) (t : ETask)
    (hf : findTask ts c = some t)
    (h : prereqGo ts (f + 1) (v, p) c = some st') :
    ∃ q, st'.2 = p ++ t :: q := by
  rw [prereqGo] at h
  rw [if_neg (by simpa using hvism)] at h
  rw [hf] at h
  simp only at h
  cases hsl : stepList (fun s i => prereqGo ts f s i) t.prerequisiteTasks
      (c :: v, p ++ [t]) with
  | none => rw [hsl] at h; simp at h
  | some st₂ =>
    rw [hsl] at h
    simp only at h
    have hstep := stepList_inv (fun s i => prereqGo ts f s i)
      (fun s s' : List Int × List ETask => ∃ q, s'.2 = s.2 ++ q)
      (fun s => ⟨[], by simp⟩)
      (fun a b d hab hbd => by
        obtain ⟨q₁, e₁⟩ := hab
        obtain ⟨q₂, e₂⟩ := hbd
        exact ⟨q₁ ++ q₂, by rw [e₂, e₁, List.append_assoc]⟩)
      t.prerequisiteTasks (c :: v, p ++ [t]) st₂
      (fun a b i _ hgi => (prereqGo_inv ts f a i b hgi).2.2) hsl
    obtain ⟨q₁, e₁⟩ := hstep
    simp only at e₁
    cases hpar : t.parentTaskId with
    | none =>
      rw [hpar] at h
      simp only [Option.some.injEq] at h
      subst h
      exact ⟨q₁, by rw [e₁]; simp⟩
    | some pid =>
      rw [hpar] at h
      simp only at h
      by_cases hz : pid = 0
      · rw [if_neg (by simp [hz])] at h
        simp only [Option.some.injEq] at h
        subst h
        exact ⟨q₁, by rw [e₁]; simp⟩
      · rw [if_pos (by simp [hz])] at h
        obtain ⟨q₂, e₂⟩ := (prereqGo_inv ts f st₂ pid st' h).2.2
        exact ⟨q₁ ++ q₂, by rw [e₂, e₁]; simp⟩

/-- C1 (amended): on every enriched task list, cyclic or not, both
traversals terminate (the modelled fuel never runs out), and
`findPrerequisitePath` never repeats a task id; `findDependentTasks`,
whose result is pushed before its visited check, can repeat an id. -/
theorem C1_traversals_terminate (x : Int) (ts : List ETask) :
    (findPrerequisitePathRun x ts).isSome = true ∧
      (findDependentTasksRun x ts).isSome = true ∧
      ((findPrerequisitePath x ts).map (·.id)).Nodup := by
  have hx : x ∈ prereqCands ts x := by
    rw [prereqCands, List.mem_dedup]
    exact List.mem_cons_self _ _
  have hμ : measureP ts x [] < prereqFuel ts x := by
    rw [prereqFuel]
    have hle : measureP ts x [] ≤ (prereqCands ts x).length := List.length_filter_le _ _
    omega
  obtain ⟨st', hst', -⟩ := prereqGo_some ts x (prereqFuel ts x) ([], []) x hx hμ
  have hμd : measureD ts [] < depFuel ts := by
    rw [depFuel]
    have hle : measureD ts [] ≤ ((ts.map (·.id)).dedup).length := List.length_filter_le _ _
    omega
  obtain ⟨std, hstd, -⟩ := depGo_some ts (depFuel ts) ([], []) x hμd
  refine ⟨?_, ?_, ?_⟩
  · rw [findPrerequisitePathRun, hst']
    rfl
  · rw [findDependentTasksRun, hstd]
    rfl
  · rw [findPrerequisitePath, findPrerequisitePathRun, hst']
    obtain ⟨v', p'⟩ := st'
    have hinv := prereqGo_inv ts (prereqFuel ts x) ([], []) x (v', p') hst'
    exact (hinv.1 ⟨by simp, by simp⟩).1

/-- C1 counterexample: on the diamond graph the id 4 is pushed twice by
`findDependentTasks` (once under each of its two prerequisites), so the
result of that traversal is not duplicate-free. -/
theorem C1_counterexample :
    ¬ (findDependentTasks 1 (enrichTasksWithDependencies exTasksDiamond)).Nodup := by
  decide

/-- C2 (amended): `findDependentTasks x` never contains `x` unless the
dependent/child edge relation admits a nonempty path from `x` back to
itself (a cycle through `x`) — in particular on every acyclic graph
`x` is excluded.  On such a cycle the unguarded push can return `x`. -/
theorem C2_findDependentTasks_excludes_start (x : Int) (ts : List ETask)
    (hx : ¬ Relation.TransGen (depEdge ts) x x) :
    x ∉ findDependentTasks x ts := by
  intro hmem
  rw [findDependentTasks] at hmem
  cases hrun : findDependentTasksRun x ts with
  | none =>
    rw [hrun] at hmem
    simp at hmem
  | some st =>
    rw [hrun] at hmem
    simp only at hmem
    have hp := depGo_reach ts (depFuel ts) ([], []) x st hrun x hmem
    rcases hp with h | ⟨k, hreach, hedge⟩
    · simp at h
    · exact hx (Relation.TransGen.tail' hreach hedge)

/-- C2 witness: on the acyclic chain (2 depends on 1), task 2 has
prerequisite links but lies on no dependent/child cycle, and the
traversal's result from 2 indeed excludes 2. -/
theorem C2_findDependentTasks_excludes_start_witness :
    (¬ Relation.TransGen (depEdge (enrichTasksWithDependencies exTasksChain)) 2 2) ∧
      (2 : Int) ∉ findDependentTasks 2 (enrichTasksWithDependencies exTasksChain) := by
  have hnc : ¬ Relation.TransGen (depEdge (enrichTasksWithDependencies exTasksChain)) 2 2 := by
    intro hcyc
    obtain ⟨b, hab, -⟩ := (Relation.TransGen.head'_iff).mp hcyc
    obtain ⟨t, ht, hb⟩ := hab
    have ht2 : findTask (enrichTasksWithDependencies exTasksChain) 2 =
        some { id := 2, projectId := 1, name := "task", status := "planned"
               parentTaskId := none, dependsOn := [1], startDate := none, dueDate := none
               dependentTasks := [], prerequisiteTasks := [1], childTasks := [] } := by
      decide
    rw [ht2] at ht
    obtain rfl := Option.some.inj ht
    simp at hb
  exact ⟨hnc, C2_findDependentTasks_excludes_start 2 _ hnc⟩

/-- C2 counterexample: with tasks 1 and 2 depending on each other, the
result of `findDependentTasks 1` contains 1 itself. -/
theorem C2_counterexample :
    (1 : Int) ∈ findDependentTasks 1 (enrichTasksWithDependencies exTasksCycle) := by
  decide

/-- C3: when a task with id `x` is present, the prerequisite path
starts with the task `find` locates for `x` and repeats no task id. -/
theorem C3_findPrerequisitePath_head (x : Int) (ts : List ETask)
    (hx : x ∈ ts.map (·.id)) :
    (findPrerequisitePath x ts).head? = findTask ts x ∧
      ((findPrerequisitePath x ts).map (·.id)).Nodup := by
  obtain ⟨t₀, hf⟩ : ∃ t₀, findTask ts x = some t₀ := by
    obtain ⟨u, hu, hid⟩ := List.mem_map.mp hx
    cases hft : findTask ts x with
    | none =>
      have := List.find?_eq_none.mp hft u hu
      rw [hid] at this
      simp at this
    | some t => exact ⟨t, rfl⟩
  have hxc : x ∈ prereqCands ts x := by
    rw [prereqCands, List.mem_dedup]
    exact List.mem_cons_self _ _
  have hμ : measureP ts x [] < prereqFuel ts x := by
    rw [prereqFuel]
    have hle : measureP ts x [] ≤ (prereqCands ts x).length := List.length_filter_le _ _
    omega
  obtain ⟨st', hst', -⟩ := prereqGo_some ts x (prereqFuel ts x) ([], []) x hxc hμ
  cases hfu : prereqFuel ts x with
  | zero => simp [prereqFuel] at hfu
  | succ N =>
    rw [hfu] at hst'
    have hpath : findPrerequisitePath x ts = st'.2 := by
      rw [findPrerequisitePath, findPrerequisitePathRun, hfu, hst']
    obtain ⟨q, hq⟩ := prereqGo_head ts N [] [] x st' (by simp) t₀ hf hst'
    constructor
    · rw [hpath, hq, hf]
      simp
    · rw [hpath]
      have hinv := prereqGo_inv ts (N + 1) ([], []) x st' hst'
      exact (hinv.1 ⟨by simp, by simp⟩).1

/-- C3 witness: on the chain, the path from task 2 starts with task 2. -/
theorem C3_findPrerequisitePath_head_witness :
    (2 : Int) ∈ (enrichTasksWithDependencies exTasksChain).map (·.id) ∧
      (findPrerequisitePath 2 (enrichTasksWithDependencies exTasksChain)).head? =
        findTask (enrichTasksWithDependencies exTasksChain) 2 :=
  ⟨by decide, (C3_findPrerequisitePath_head 2 _ (by decide)).1⟩

/-- C8: an id absent from the list makes both traversals return an
empty sequence (their `find` fails on the very first visit). -/
theorem C8_unknown_id_empty (x : Int) (ts : List ETask)
    (hx : x ∉ ts.map (·.id)) :
    findPrerequisitePath x ts = [] ∧ findDependentTasks x ts = [] := by
  have hfn : findTask ts x = none := by
    apply findTask_eq_none
    intro t ht heq
    exact hx (heq ▸ List.mem_map_of_mem _ ht)
  constructor
  · cases hfu : prereqFuel ts x with
    | zero => simp [prereqFuel] at hfu
    | succ N =>
      rw [findPrerequisitePath, findPrerequisitePathRun, hfu, prereqGo]
      rw [if_neg (by simp)]
      simp [hfn]
  · rw [findDependentTasks, findDependentTasksRun, depGo]
    simp [hfn]

/-- C8 witness: id 99 is absent from the chain and both traversals
return the empty sequence on it. -/
theorem C8_unknown_id_empty_witness :
    (99 : Int) ∉ (enrichTasksWithDependencies exTasksChain).map (·.id) ∧
      findPrerequisitePath 99 (enrichTasksWithDependencies exTasksChain) = [] ∧
      findDependentTasks 99 (enrichTasksWithDependencies exTasksChain) = [] :=
  ⟨by decide, (C8_unknown_id_empty 99 _ (by decide)).1,
    (C8_unknown_id_empty 99 _ (by decide)).2⟩

/-! ### Enrichment: arena lemmas -/

/-- Reading an empty arena. -/
theorem mapGetE_nil (k : Int) : mapGetE [] k = none := rfl

/-- Reading a nonempty arena: first entry wins. -/
theorem mapGetE_cons (k₀ : Int) (v₀ : ETask) (rest : TMap) (k : Int) :
    mapGetE ((k₀, v₀) :: rest) k = if k₀ = k then some v₀ else mapGetE rest k := by
  by_cases h : k₀ = k
  · rw [mapGetE, List.find?_cons_of_pos _ (by simpa using h), if_pos h]
    rfl
  · rw [mapGetE, List.find?_cons_of_neg _ (by simpa using h), if_neg h]
    rfl

/-- Reading through a `set`: the written key gets the new value, other
keys are untouched. -/
theorem mapGetE_set (m : TMap) (k : Int) (v : ETask) (k' : Int) :
    mapGetE (mapSet m k v) k' = if k' = k then some v else mapGetE m k' := by
  induction m with
  | nil =>
    rw [show mapSet [] k v = [(k, v)] from rfl, mapGetE_cons]
    by_cases h : k' = k
    · simp [h]
    · simp [h, show ¬ k = k' from fun hh => h hh.symm, mapGetE_nil]
  | cons kv rest ih =>
    obtain ⟨k₀, v₀⟩ := kv
    by_cases h0 : k₀ = k
    · subst h0
      rw [mapSet, if_pos (by simp)]
      rw [mapGetE_cons, mapGetE_cons]
      by_cases h : k₀ = k'
      · simp [h]
      · simp [h, show ¬ k' = k₀ from fun hh => h hh.symm]
    · rw [mapSet, if_neg (by simpa using h0)]
      rw [mapGetE_cons, mapGetE_cons]
      by_cases h : k₀ = k'
      · have hk : ¬ k' = k := fun hh => h0 (by rw [h, hh])
        simp [h, hk]
      · rw [if_neg h, if_neg h, ih]

/-- Reading through an update: the updated key's value goes through
`f`, other keys are untouched. -/
theorem mapGetE_upd (m : TMap) (k : Int) (f : ETask → ETask) (k' : Int) :
    mapGetE (mapUpd m k f) k' = if k' = k then (mapGetE m k).map f else mapGetE m k' := by
  induction m with
  | nil =>
    rw [show mapUpd [] k f = [] from rfl]
    by_cases h : k' = k <;> simp [h, mapGetE_nil]
  | cons kv rest ih =>
    obtain ⟨k₀, v₀⟩ := kv
    by_cases h0 : k₀ = k
    · subst h0
      rw [mapUpd, if_pos (by simp)]
      simp only [mapGetE_cons]
      by_cases h : k₀ = k'
      · subst h
        simp
      · simp [h, show ¬ k' = k₀ from fun hh => h hh.symm]
    · rw [mapUpd, if_neg (by simpa using h0)]
      simp only [mapGetE_cons]
      rw [if_neg h0]
      by_cases h : k₀ = k'
      · subst h
        simp [h0]
      · rw [if_neg h, if_neg h]
        exact ih

/-- Updates do not change the key sequence. -/
theorem mapUpd_keys (m : TMap) (k : Int) (f : ETask → ETask) :
    (mapUpd m k f).map (·.1) = m.map (·.1) := by
  induction m with
  | nil => rfl
  | cons kv rest ih =>
    obtain ⟨k₀, v₀⟩ := kv
    by_cases h0 : k₀ = k
    · subst h0
      simp [mapUpd]
    · rw [mapUpd, if_neg (by simpa using h0)]
      simp [ih]

/-- Setting a fresh key appends the pair. -/
theorem mapSet_append (m : TMap) (k : Int) (v : ETask) (h : k ∉ m.map (·.1)) :
    mapSet m k v = m ++ [(k, v)] := by
  induction m with
  | nil => rfl
  | cons kv rest ih =>
    obtain ⟨k₀, v₀⟩ := kv
    simp only [List.map_cons, List.mem_cons] at h
    push_neg at h
    rw [mapSet, if_neg (by simpa using fun hh => h.1 hh.symm)]
    rw [ih h.2]
    rfl

/-- A successful read exhibits a key of the arena. -/
theorem mapGetE_some_mem_keys {m : TMap} {k : Int} {e : ETask}
    (h : mapGetE m k = some e) : k ∈ m.map (·.1) := by
  induction m with
  | nil => rw [mapGetE_nil] at h; exact Option.noConfusion h
  | cons kv rest ih =>
    obtain ⟨k₀, v₀⟩ := kv
    rw [mapGetE_cons] at h
    by_cases h0 : k₀ = k
    · simp [h0]
    · rw [if_neg h0] at h
      simp only [List.map_cons, List.mem_cons]
      exact Or.inr (ih h)

/-- With duplicate-free keys, arena membership is exactly a successful
read. -/
theorem mem_iff_mapGetE {m : TMap} (hnd : (m.map (·.1)).Nodup) (k : Int) (e : ETask) :
    (k, e) ∈ m ↔ mapGetE m k = some e := by
  induction m with
  | nil => simp [mapGetE_nil]
  | cons kv rest ih =>
    obtain ⟨k₀, v₀⟩ := kv
    simp only [List.map_cons, List.nodup_cons] at hnd
    rw [mapGetE_cons, List.mem_cons]
    by_cases h0 : k₀ = k
    · subst h0
      rw [if_pos rfl]
      constructor
      · rintro (hm | hm)
        · simp only [Prod.mk.injEq] at hm
          rw [hm.2]
        · exact absurd (List.mem_map_of_mem (·.1) hm) hnd.1
      · intro hs
        simp only [Option.some.injEq] at hs
        exact Or.inl (by rw [hs])
    · rw [if_neg h0, ← ih hnd.2]
      constructor
      · rintro (hm | hm)
        · exact absurd (congrArg Prod.fst hm).symm h0
        · exact hm
      · exact fun hm => Or.inr hm

/-- Folding `Map.set` over tasks with fresh, duplicate-free ids appends
one pair per task. -/
theorem foldl_mapSet_eq (l : List Task) : ∀ (m : TMap),
    (∀ t ∈ l, t.id ∉ m.map (·.1)) → ((l.map (·.id)).Nodup) →
    l.foldl (fun m t => mapSet m t.id (mkEnriched t)) m =
      m ++ l.map (fun t => (t.id, mkEnriched t)) := by
  induction l with
  | nil =>
    intro m _ _
    simp
  | cons t l ih =>
    intro m hfr hnd
    simp only [List.map_cons, List.nodup_cons] at hnd
    rw [List.foldl_cons]
    rw [mapSet_append m t.id _ (hfr t (List.mem_cons_self _ _))]
    rw [ih (m ++ [(t.id, mkEnriched t)]) ?_ hnd.2]
    · simp
    · intro u hu
      simp only [List.map_append, List.mem_append]
      push_neg
      refine ⟨hfr u (List.mem_cons.mpr (Or.inr hu)), ?_⟩
      simp only [List.map_cons, List.map_nil, List.mem_singleton]
      intro he
      exact hnd.1 (he ▸ List.mem_map_of_mem (·.id) hu)

/-- Reading the arena built by pass 1 yields a freshly wrapped task. -/
theorem mapGetE_pass1_list : ∀ (l : List Task) (k : Int) (e : ETask),
    mapGetE (l.map (fun t => (t.id, mkEnriched t))) k = some e →
    ∃ t ∈ l, t.id = k ∧ e = mkEnriched t := by
  intro l
  induction l with
  | nil =>
    intro k e h
    rw [List.map_nil, mapGetE_nil] at h
    exact Option.noConfusion h
  | cons t l ih =>
    intro k e h
    rw [List.map_cons, mapGetE_cons] at h
    by_cases ht : t.id = k
    · rw [if_pos ht] at h
      exact ⟨t, List.mem_cons_self _ _, ht, (Option.some.inj h).symm⟩
    · rw [if_neg ht] at h
      obtain ⟨u, hu, hid, he⟩ := ih k e h
      exact ⟨u, List.mem_cons.mpr (Or.inr hu), hid, he⟩

/-- Pass 1 establishes the enrichment invariant. -/
theorem enrichPass1_inv (ts : List Task) (hnd : (ts.map (·.id)).Nodup) :
    EnrichInv ts (enrichPass1 ts) := by
  have heq : enrichPass1 ts = ts.map (fun t => (t.id, mkEnriched t)) := by
    rw [enrichPass1, foldl_mapSet_eq ts [] (by simp) hnd]
    simp
  rw [EnrichInv, heq]
  refine ⟨?_, ?_, ?_⟩
  · rw [List.map_map]
    rfl
  · intro k e hget
    obtain ⟨t, htmem, htid, rfl⟩ := mapGetE_pass1_list ts k e hget
    refine ⟨htid, ?_, ?_, ?_⟩ <;> simp [mkEnriched]
  · intro ka ea kb eb hga hgb
    obtain ⟨ta, -, -, rfl⟩ := mapGetE_pass1_list ts ka ea hga
    obtain ⟨tb, -, -, rfl⟩ := mapGetE_pass1_list ts kb eb hgb
    simp [mkEnriched]

/-- Effect of one resolved dependency edge on any arena read: the
task's entry gains the prerequisite id, the prerequisite's entry gains
the dependent id, and nothing else changes. -/
theorem depEdge_decomp (m : TMap) (tid d : Int) :
    ∀ (k : Int) (e' : ETask),
      mapGetE (mapUpd (mapUpd m tid (pushPrereq d)) d (pushDependent tid)) k = some e' →
      ∃ e, mapGetE m k = some e ∧ e'.id = e.id ∧
        e'.dependentTasks = e.dependentTasks ++ (if k = d then [tid] else []) ∧
        e'.prerequisiteTasks = e.prerequisiteTasks ++ (if k = tid then [d] else []) ∧
        e'.childTasks = e.childTasks := by
  intro k e' hk
  rw [mapGetE_upd] at hk
  by_cases h1 : k = d
  · rw [if_pos h1, mapGetE_upd] at hk
    by_cases h2 : d = tid
    · rw [if_pos h2] at hk
      obtain ⟨e₁, he₁, hpe₁⟩ := Option.map_eq_some'.mp hk
      obtain ⟨e, he, hpe⟩ := Option.map_eq_some'.mp he₁
      refine ⟨e, by rw [h1, h2]; exact he, ?_⟩
      rw [← hpe₁, ← hpe]
      rw [if_pos h1, if_pos (by rw [h1, h2])]
      simp [pushPrereq, pushDependent]
    · rw [if_neg h2] at hk
      obtain ⟨e, he, hpe⟩ := Option.map_eq_some'.mp hk
      refine ⟨e, by rw [h1]; exact he, ?_⟩
      rw [← hpe]
      rw [if_pos h1, if_neg (by rw [h1]; exact h2)]
      simp [pushDependent]
  · rw [if_neg h1, mapGetE_upd] at hk
    by_cases h2 : k = tid
    · rw [if_pos h2] at hk
      obtain ⟨e, he, hpe⟩ := Option.map_eq_some'.mp hk
      refine ⟨e, by rw [h2]; exact he, ?_⟩
      rw [← hpe]
      rw [if_neg h1, if_pos h2]
      simp [pushPrereq]
    · rw [if_neg h2] at hk
      refine ⟨e', hk, rfl, ?_⟩
      rw [if_neg h1, if_neg h2]
      simp

/-- One resolved dependency edge, with a task id of the input list,
preserves the enrichment invariant. -/
theorem enrichDepEdge_inv (ts : List Task) (m : TMap) (tid d : Int)
    (htid : tid ∈ ts.map (·.id)) (hinv : EnrichInv ts m) :
    EnrichInv ts (if (mapGetE m d).isSome then
      mapUpd (mapUpd m tid (pushPrereq d)) d (pushDependent tid) else m) := by
  by_cases hd : (mapGetE m d).isSome
  case neg =>
    rw [if_neg hd]
    exact hinv
  case pos =>
    rw [if_pos hd]
    obtain ⟨ed, hed⟩ := Option.isSome_iff_exists.mp hd
    obtain ⟨hkeys, hent, hiff⟩ := hinv
    have hdkeys : d ∈ ts.map (·.id) := hkeys ▸ mapGetE_some_mem_keys hed
    refine ⟨?_, ?_, ?_⟩
    · rw [mapUpd_keys, mapUpd_keys]
      exact hkeys
    · intro k e' hk
      obtain ⟨e, he, hid, hdep, hpre, hch⟩ := depEdge_decomp m tid d k e' hk
      obtain ⟨hide, hsubp, hsubd, hsubc⟩ := hent k e he
      refine ⟨by rw [hid, hide], ?_, ?_, ?_⟩
      · intro i hi
        rw [hpre] at hi
        rcases List.mem_append.mp hi with hi | hi
        · exact hsubp i hi
        · by_cases hkt : k = tid
          · rw [if_pos hkt] at hi
            simp only [List.mem_singleton] at hi
            rw [hi]
            exact hdkeys
          · rw [if_neg hkt] at hi
            simp at hi
      · intro i hi
        rw [hdep] at hi
        rcases List.mem_append.mp hi with hi | hi
        · exact hsubd i hi
        · by_cases hkd : k = d
          · rw [if_pos hkd] at hi
            simp only [List.mem_singleton] at hi
            rw [hi]
            exact htid
          · rw [if_neg hkd] at hi
            simp at hi
      · intro i hi
        rw [hch] at hi
        exact hsubc i hi
    · intro ka ea' kb eb' hga hgb
      obtain ⟨ea, hea, -, hea_dep, hea_pre, -⟩ := depEdge_decomp m tid d ka ea' hga
      obtain ⟨eb, heb, -, heb_dep, heb_pre, -⟩ := depEdge_decomp m tid d kb eb' hgb
      have hold := hiff ka ea kb eb hea heb
      rw [hea_dep, heb_pre]
      have hL : kb ∈ ea.dependentTasks ++ (if ka = d then [tid] else []) ↔
          (kb ∈ ea.dependentTasks ∨ (ka = d ∧ kb = tid)) := by
        rw [List.mem_append]
        by_cases h : ka = d <;> simp [h]
      have hR : ka ∈ eb.prerequisiteTasks ++ (if kb = tid then [d] else []) ↔
          (ka ∈ eb.prerequisiteTasks ∨ (kb = tid ∧ ka = d)) := by
        rw [List.mem_append]
        by_cases h : kb = tid <;> simp [h]
      rw [hL, hR, hold]
      tauto

/-- A resolved parent link, with a task id of the input list, preserves
the enrichment invariant (only `childTasks` changes). -/
theorem enrichChildEdge_inv (ts : List Task) (m : TMap) (tid p : Int)
    (htid : tid ∈ ts.map (·.id)) (hinv : EnrichInv ts m) :
    EnrichInv ts (if (mapGetE m p).isSome then mapUpd m p (pushChild tid) else m) := by
  by_cases hp : (mapGetE m p).isSome
  case neg =>
    rw [if_neg hp]
    exact hinv
  case pos =>
    rw [if_pos hp]
    obtain ⟨hkeys, hent, hiff⟩ := hinv
    have hdecomp : ∀ (k : Int) (e' : ETask),
        mapGetE (mapUpd m p (pushChild tid)) k = some e' →
        ∃ e, mapGetE m k = some e ∧ e'.id = e.id ∧
          e'.dependentTasks = e.dependentTasks ∧
          e'.prerequisiteTasks = e.prerequisiteTasks ∧
          e'.childTasks = e.childTasks ++ (if k = p then [tid] else []) := by
      intro k e' hk
      rw [mapGetE_upd] at hk
      by_cases h1 : k = p
      · rw [if_pos h1] at hk
        obtain ⟨e, he, hpe⟩ := Option.map_eq_some'.mp hk
        refine ⟨e, by rw [h1]; exact he, ?_⟩
        rw [← hpe, if_pos h1]
        simp [pushChild]
      · rw [if_neg h1] at hk
        refine ⟨e', hk, rfl, rfl, rfl, ?_⟩
        rw [if_neg h1]
        simp
    refine ⟨?_, ?_, ?_⟩
    · rw [mapUpd_keys]
      exact hkeys
    · intro k e' hk
      obtain ⟨e, he, hid, hdep, hpre, hch⟩ := hdecomp k e' hk
      obtain ⟨hide, hsubp, hsubd, hsubc⟩ := hent k e he
      refine ⟨by rw [hid, hide], ?_, ?_, ?_⟩
      · intro i hi
        rw [hpre] at hi
        exact hsubp i hi
      · intro i hi
        rw [hdep] at hi
        exact hsubd i hi
      · intro i hi
        rw [hch] at hi
        rcases List.mem_append.mp hi with hi | hi
        · exact hsubc i hi
        · by_cases hkp : k = p
          · rw [if_pos hkp] at hi
            simp only [List.mem_singleton] at hi
            rw [hi]
            exact htid
          · rw [if_neg hkp] at hi
            simp at hi
    · intro ka ea' kb eb' hga hgb
      obtain ⟨ea, hea, -, hea_dep, hea_pre, -⟩ := hdecomp ka ea' hga
      obtain ⟨eb, heb, -, heb_dep, heb_pre, -⟩ := hdecomp kb eb' hgb
      rw [hea_dep, heb_pre]
      exact hiff ka ea kb eb hea heb

/-- The pass-2 body of one task of the list preserves the invariant. -/
theorem enrichStep_inv (ts : List Task) (t : Task) (ht : t.id ∈ ts.map (·.id))
    (m : TMap) (hinv : EnrichInv ts m) : EnrichInv ts (enrichStep m t) := by
  rw [enrichStep]
  have hfold : ∀ (l : List Int) (m : TMap), EnrichInv ts m →
      EnrichInv ts (l.foldl (fun m depId =>
        if (mapGetE m depId).isSome then
          mapUpd (mapUpd m t.id (pushPrereq depId)) depId (pushDependent t.id)
        else m) m) := by
    intro l
    induction l with
    | nil =>
      intro m h
      exact h
    | cons d ds ih =>
      intro m h
      rw [List.foldl_cons]
      exact ih _ (enrichDepEdge_inv ts m t.id d ht h)
  have hdep : EnrichInv ts (enrichDepFold m t) := hfold t.dependsOn m hinv
  cases hpar : t.parentTaskId with
  | none =>
    have hred : enrichParentStep (enrichDepFold m t) t = enrichDepFold m t := by
      simp only [enrichParentStep, hpar]
    rw [hred]
    exact hdep
  | some p =>
    by_cases hz : (p != 0) = true
    · have hred : enrichParentStep (enrichDepFold m t) t =
          (if (mapGetE (enrichDepFold m t) p).isSome then
            mapUpd (enrichDepFold m t) p (pushChild t.id) else enrichDepFold m t) := by
        simp only [enrichParentStep, hpar]
        rw [if_pos hz]
      rw [hred]
      exact enrichChildEdge_inv ts (enrichDepFold m t) t.id p ht hdep
    · have hred : enrichParentStep (enrichDepFold m t) t = enrichDepFold m t := by
        simp only [enrichParentStep, hpar]
        rw [if_neg hz]
      rw [hred]
      exact hdep

/-- Pass 2 over any sublist of tasks preserves the invariant. -/
theorem enrichFold_inv (ts : List Task) : ∀ (l : List Task) (m : TMap),
    (∀ t ∈ l, t.id ∈ ts.map (·.id)) → EnrichInv ts m →
    EnrichInv ts (l.foldl enrichStep m) := by
  intro l
  induction l with
  | nil =>
    intro m _ h
    exact h
  | cons t l ih =>
    intro m hl h
    rw [List.foldl_cons]
    exact ih _ (fun u hu => hl u (List.mem_cons.mpr (Or.inr hu)))
      (enrichStep_inv ts t (hl t (List.mem_cons_self _ _)) m h)

/-- C4: with duplicate-free ids, enrichment returns exactly one
enriched task per input task (same ids, same order); dependent and
prerequisite edges are mutually consistent (B in A's dependents iff A
in B's prerequisites); and every relation entry resolves to an input
id, dangling references having been dropped without error. -/
theorem C4_enrichTasksWithDependencies (ts : List Task)
    (hnd : (ts.map (·.id)).Nodup) :
    ((enrichTasksWithDependencies ts).map (·.id) = ts.map (·.id)) ∧
      (∀ a ∈ enrichTasksWithDependencies ts, ∀ b ∈ enrichTasksWithDependencies ts,
        (b.id ∈ a.dependentTasks ↔ a.id ∈ b.prerequisiteTasks)) ∧
      (∀ a ∈ enrichTasksWithDependencies ts, ∀ i,
        (i ∈ a.prerequisiteTasks ∨ i ∈ a.dependentTasks ∨ i ∈ a.childTasks) →
        i ∈ ts.map (·.id)) := by
  obtain ⟨hkeys, hent, hiff⟩ :=
    enrichFold_inv ts ts (enrichPass1 ts)
      (fun t ht => List.mem_map_of_mem _ ht) (enrichPass1_inv ts hnd)
  have hkeysnd : ((ts.foldl enrichStep (enrichPass1 ts)).map (·.1)).Nodup := by
    rw [hkeys]
    exact hnd
  have hvals : enrichTasksWithDependencies ts =
      (ts.foldl enrichStep (enrichPass1 ts)).map (·.2) := rfl
  have hidp : ∀ pr ∈ ts.foldl enrichStep (enrichPass1 ts), (Prod.snd pr).id = pr.1 := by
    intro pr hpr
    have hg : mapGetE (ts.foldl enrichStep (enrichPass1 ts)) pr.1 = some pr.2 :=
      (mem_iff_mapGetE hkeysnd pr.1 pr.2).mp hpr
    exact (hent pr.1 pr.2 hg).1
  refine ⟨?_, ?_, ?_⟩
  · rw [hvals, List.map_map, ← hkeys]
    exact List.map_congr_left (fun pr hpr => hidp pr hpr)
  · intro a ha b hb
    rw [hvals] at ha hb
    obtain ⟨pa, hpa, rfl⟩ := List.mem_map.mp ha
    obtain ⟨pb, hpb, rfl⟩ := List.mem_map.mp hb
    have hga : mapGetE (ts.foldl enrichStep (enrichPass1 ts)) pa.1 = some pa.2 :=
      (mem_iff_mapGetE hkeysnd pa.1 pa.2).mp hpa
    have hgb : mapGetE (ts.foldl enrichStep (enrichPass1 ts)) pb.1 = some pb.2 :=
      (mem_iff_mapGetE hkeysnd pb.1 pb.2).mp hpb
    rw [hidp pa hpa, hidp pb hpb]
    exact hiff pa.1 pa.2 pb.1 pb.2 hga hgb
  · intro a ha i hi
    rw [hvals] at ha
    obtain ⟨pa, hpa, rfl⟩ := List.mem_map.mp ha
    have hga : mapGetE (ts.foldl enrichStep (enrichPass1 ts)) pa.1 = some pa.2 :=
      (mem_iff_mapGetE hkeysnd pa.1 pa.2).mp hpa
    obtain ⟨-, hsubp, hsubd, hsubc⟩ := hent pa.1 pa.2 hga
    rcases hi with hi | hi | hi
    · exact hsubp i hi
    · exact hsubd i hi
    · exact hsubc i hi

/-- C4 witness: two tasks with unique ids and a dangling dependency on
the absent id 5 enrich to the same two ids without error. -/
theorem C4_enrichTasksWithDependencies_witness :
    ((exTasksDangling.map (·.id)).Nodup) ∧
      ((enrichTasksWithDependencies exTasksDangling).map (·.id) =
        exTasksDangling.map (·.id)) :=
  ⟨by decide, (C4_enrichTasksWithDependencies exTasksDangling (by decide)).1⟩

end TaskMgmt
